import Mathlib

/-!
Verification development for the SI-unit normalizer of `src/SIParser.ts`
(repository `november-yankee/science-test-grading`).

The grammar functions of the source are shallowly embedded as total Lean
functions over `List Char` cursors.  Every grammar rule of the source
returns an object `{consumed, rest, success, result}`; this is embedded
as the inductive `PR` below.  JavaScript numbers are modelled as exact
decimal fractions (`Dec`, kept in the canonical form produced by the
IEEE-double-to-string conversion: no trailing fractional zeros), plus a
NaN marker (`JSNum := Option Dec`, `none` = NaN).  `JSON.stringify` of a
number follows the ECMAScript number-to-string algorithm on these exact
decimals: plain decimal rendering inside the range `-6 < p ≤ 21` of the
decimal-point position `p`, exponential notation (`1e-7`, `1e+22`)
outside it (binary rounding of doubles is idealized away, which is exact
for the shortest-round-trip digit strings these inputs produce).  The
self-recursive rules take an explicit fuel
argument; the public wrappers supply `length + 1` fuel, which is enough
because every recursive call strictly shrinks the remaining input.
-/

/-- `'0' ≤ c ≤ '9'`, the digit test of the `_parseDigits` loop. -/
def isDigitChar (c : Char) : Bool := '0' ≤ c && c ≤ '9'

/-- Value of a digit character. -/
def digitVal (c : Char) : Nat := c.toNat - 48

/-- `parseInt` on a pure digit run: fold the digits left to right. -/
def digitsVal (l : List Char) : Nat := l.foldl (fun a c => a * 10 + digitVal c) 0

/-- Auxiliary digit renderer; the first argument is fuel (`n + 1` is enough). -/
def natDigitsAux : Nat → Nat → List Char → List Char
  | 0, _, acc => acc
  | fuel + 1, n, acc =>
    let d := Char.ofNat (48 + n % 10)
    if n < 10 then d :: acc else natDigitsAux fuel (n / 10) (d :: acc)

/-- Decimal digits of `n`, most significant first (`"0"` for zero). -/
def natDigits (n : Nat) : List Char := natDigitsAux (n + 1) n []

/-- Exactly `e` decimal digits of `n mod 10^e`, zero padded on the left. -/
def fracDigits : Nat → Nat → List Char
  | 0, _ => []
  | e + 1, n => fracDigits e (n / 10) ++ [Char.ofNat (48 + n % 10)]

/-- Rendering of a signed integer, as JavaScript template interpolation does. -/
def intChars (i : Int) : List Char :=
  if i < 0 then '-' :: natDigits i.natAbs else natDigits i.natAbs

/-- An exact decimal fraction `m / 10^e`, the model of a JavaScript number. -/
structure Dec where
  m : Int
  e : Nat
  deriving DecidableEq, Repr

/-- Canonicalize: strip factors of ten so the fraction part has no trailing
zeros, mirroring the value identification performed by IEEE doubles. -/
def Dec.norm : Int → Nat → Dec
  | m, 0 => ⟨m, 0⟩
  | m, e + 1 => if m % 10 = 0 then Dec.norm (m / 10) e else ⟨m, e + 1⟩

/-- A `Dec` is canonical when a nonzero fraction length implies the mantissa
is not a multiple of ten. -/
def Dec.Canonical (d : Dec) : Prop := d.e ≠ 0 → d.m % 10 ≠ 0

instance (d : Dec) : Decidable d.Canonical := by
  unfold Dec.Canonical; infer_instance

/-- Negation of an exact decimal. -/
def Dec.neg (d : Dec) : Dec := ⟨-d.m, d.e⟩

/-- Exact addition of decimals (canonicalized). -/
def Dec.add (a b : Dec) : Dec :=
  let e := max a.e b.e
  Dec.norm (a.m * (10 : Int) ^ (e - a.e) + b.m * (10 : Int) ^ (e - b.e)) e

/-- Value of a decimal as a rational. -/
def Dec.val (d : Dec) : ℚ := (d.m : ℚ) / (10 : ℚ) ^ d.e

/-- Integer as a decimal. -/
def Dec.ofInt (i : Int) : Dec := ⟨i, 0⟩

/-- A JavaScript number: either an exact decimal or NaN (`none`). -/
def JSNum := Option Dec
  deriving DecidableEq, Repr

/-- `parseFloat` on a string of shape `digits? ('.' digits?)?` — the only
shapes the decimal rule feeds it.  `"."` alone is NaN. -/
def jsParseFloat (s : List Char) : JSNum :=
  let ip := s.takeWhile isDigitChar
  let rest := s.dropWhile isDigitChar
  match rest with
  | '.' :: fp =>
    if ip = [] && fp = [] then none
    else some (Dec.norm ((digitsVal ip : Int) * (10 : Int) ^ fp.length + (digitsVal fp : Int)) fp.length)
  | _ => if ip = [] then none else some ⟨(digitsVal ip : Int), 0⟩

/-- Plain-decimal rendering of a canonical `Dec`: the form JavaScript
number-to-string uses inside its non-exponential range. -/
def decChars (d : Dec) : List Char :=
  if d.m < 0 then '-' :: (if d.e = 0 then natDigits d.m.natAbs
      else natDigits (d.m.natAbs / 10 ^ d.e) ++ '.' :: fracDigits d.e d.m.natAbs)
  else if d.e = 0 then natDigits d.m.natAbs
  else natDigits (d.m.natAbs / 10 ^ d.e) ++ '.' :: fracDigits d.e d.m.natAbs

/-- Trailing zeros stripped from a digit string (only the significant
digits survive in exponential notation). -/
def trimZeros (l : List Char) : List Char :=
  (l.reverse.dropWhile (fun c => c = '0')).reverse

/-- The decimal-point position `p` of the ECMAScript number-to-string
algorithm: the value is `digits × 10^(p - length digits)`. -/
def decPointPos (d : Dec) : Int :=
  ((natDigits d.m.natAbs).length : Int) - (d.e : Int)

/-- The plain-decimal range of JavaScript number rendering: zero, or
`-6 < p ≤ 21`; outside it `toString` switches to exponential notation
(so `1e-7` and `1e+22` print in exponent form, `0.000001` does not). -/
def plainRange (d : Dec) : Bool :=
  d.m = 0 || (-6 < decPointPos d && decPointPos d ≤ 21)

/-- Exponential rendering `d.ddd e±p` used by JavaScript outside the
plain range. -/
def decCharsExp (d : Dec) : List Char :=
  let sig := trimZeros (natDigits d.m.natAbs)
  let ex : Int := decPointPos d - 1
  let body : List Char :=
    sig.take 1 ++ (if sig.drop 1 = [] then [] else '.' :: sig.drop 1) ++
      'e' :: (if ex < 0 then '-' :: natDigits ex.natAbs else '+' :: natDigits ex.natAbs)
  if d.m < 0 then '-' :: body else body

/-- JavaScript number-to-string on a canonical decimal: plain decimal in
the plain range, exponential notation otherwise. -/
def jsNumChars (d : Dec) : List Char :=
  if plainRange d then decChars d else decCharsExp d

/-- `JSON.stringify` of a number: `NaN` serializes as the literal `null`,
finite values via the number-to-string algorithm. -/
def jsonNum : JSNum → List Char
  | none => 'n' :: 'u' :: 'l' :: 'l' :: []
  | some d => jsNumChars d

/-- The universal parse outcome `{consumed, rest, success, result}` of every
grammar rule: `ok` carries the result, `fail` does not. -/
inductive PR (α : Type) : Type where
  | ok (consumed rest : List Char) (result : α)
  | fail (consumed rest : List Char)
  deriving Repr, DecidableEq

/-- The `consumed` field. -/
def PR.consumed {α : Type} : PR α → List Char
  | .ok c _ _ => c
  | .fail c _ => c

/-- The `rest` field. -/
def PR.rest {α : Type} : PR α → List Char
  | .ok _ r _ => r
  | .fail _ r => r

/-- The `success` field. -/
def PR.success {α : Type} : PR α → Bool
  | .ok _ _ _ => true
  | .fail _ _ => false

/-- `_parseChar`: one-character literal match (`charAt(0)` on the empty
string is `''`, which never equals the sought character). -/
def _parseChar (s : List Char) (c : Char) : PR Unit :=
  match s with
  | x :: rest => if c = x then .ok [c] rest () else .fail [] s
  | [] => .fail [] []

/-- `_parseDigits`: maximal run of leading digits, `parseInt` of the run;
failure keeps a zero-length `consumed`. -/
def _parseDigits (s : List Char) : PR Nat :=
  let consumed := s.takeWhile isDigitChar
  if consumed = [] then .fail [] s
  else .ok consumed (s.dropWhile isDigitChar) (digitsVal consumed)

/-- `_parseDotDigits`: a period, then digits.  The source reports success as
soon as the period matched, even when no digits follow (`parseFloat('.')`
is then NaN); `rest` is sliced off the input by consumed length. -/
def _parseDotDigits (s : List Char) : PR JSNum :=
  match _parseChar s '.' with
  | .ok pc pr _ =>
    let dres := _parseDigits pr
    let consumed := pc ++ dres.consumed
    .ok consumed (s.drop consumed.length) (jsParseFloat consumed)
  | .fail _ _ => .fail [] s

/-- `_parseInteger`, fueled: an optional sign handled by self-recursion,
then digits. -/
def _parseIntegerF : Nat → List Char → PR Int
  | 0, s => .fail [] s
  | fuel + 1, s =>
    match _parseChar s '+' with
    | .ok pc pr _ =>
      match _parseIntegerF fuel pr with
      | .ok c r v => .ok (pc ++ c) r v
      | .fail c _ => .fail (pc ++ c) s
    | .fail _ _ =>
      match _parseChar s '-' with
      | .ok mc mr _ =>
        match _parseIntegerF fuel mr with
        | .ok c r v => .ok (mc ++ c) r (-v)
        | .fail c _ => .fail (mc ++ c) s
      | .fail _ _ =>
        match _parseDigits s with
        | .ok c r v => .ok c r (v : Int)
        | .fail c _ => .fail c s

/-- `_parseInteger`: the fuel `length + 1` covers every sign recursion. -/
def _parseInteger (s : List Char) : PR Int := _parseIntegerF (s.length + 1) s

/-- `_parseDecimal`, fueled: optional sign by self-recursion, else digits
followed by an optional dot-digits continuation.  When the continuation
matches, the result is `parseFloat` of the combined token; when only the
digits matched, the digits outcome itself is returned (converted to a
number); when neither matched, the failed digits outcome is returned. -/
def _parseDecimalF : Nat → List Char → PR JSNum
  | 0, s => .fail [] s
  | fuel + 1, s =>
    match _parseChar s '+' with
    | .ok pc pr _ =>
      match _parseDecimalF fuel pr with
      | .ok c r v => .ok (pc ++ c) r v
      | .fail c _ => .fail (pc ++ c) s
    | .fail _ _ =>
      match _parseChar s '-' with
      | .ok mc mr _ =>
        match _parseDecimalF fuel mr with
        | .ok c r v => .ok (mc ++ c) r (v.map Dec.neg)
        | .fail c _ => .fail (mc ++ c) s
      | .fail _ _ =>
        let dres := _parseDigits s
        match _parseDotDigits dres.rest with
        | .ok c2 r2 _ =>
          let consumed := dres.consumed ++ c2
          .ok consumed r2 (jsParseFloat consumed)
        | .fail _ _ =>
          match dres with
          | .ok c r v => .ok c r (some (Dec.ofInt v))
          | .fail c _ => .fail c s

/-- `_parseDecimal` wrapper. -/
def _parseDecimal (s : List Char) : PR JSNum := _parseDecimalF (s.length + 1) s

/-- `_parseSignificand` delegates to the decimal rule. -/
def _parseSignificand (s : List Char) : PR JSNum := _parseDecimal s

/-- `_parseExponent` delegates to the integer rule. -/
def _parseExponent (s : List Char) : PR Int := _parseInteger s

/-- The thirteen canonical unit keys of the normalizer. -/
inductive Key : Type where
  | k10 | kg | km | ks | kA | kK | kcd | kmol | kpct | kppm | kppb | kppt | kppq
  deriving DecidableEq, Repr

/-- An exponent vector: each canonical key maps to a present signed exponent
or is absent (`hasOwnProperty` is presence of `some`). -/
structure ExpMap where
  e10 : Option Int
  eg : Option Int
  em : Option Int
  es : Option Int
  eA : Option Int
  eK : Option Int
  ecd : Option Int
  emol : Option Int
  epct : Option Int
  eppm : Option Int
  eppb : Option Int
  eppt : Option Int
  eppq : Option Int
  deriving DecidableEq, Repr

/-- The all-absent exponent vector (`{}`). -/
def ExpMap.empty : ExpMap := ⟨none, none, none, none, none, none, none, none, none, none, none, none, none⟩

/-- Field read by key. -/
def ExpMap.get (x : ExpMap) : Key → Option Int
  | .k10 => x.e10
  | .kg => x.eg
  | .km => x.em
  | .ks => x.es
  | .kA => x.eA
  | .kK => x.eK
  | .kcd => x.ecd
  | .kmol => x.emol
  | .kpct => x.epct
  | .kppm => x.eppm
  | .kppb => x.eppb
  | .kppt => x.eppt
  | .kppq => x.eppq

/-- Field write by key. -/
def ExpMap.set (x : ExpMap) : Key → Option Int → ExpMap
  | .k10, v => { x with e10 := v }
  | .kg, v => { x with eg := v }
  | .km, v => { x with em := v }
  | .ks, v => { x with es := v }
  | .kA, v => { x with eA := v }
  | .kK, v => { x with eK := v }
  | .kcd, v => { x with ecd := v }
  | .kmol, v => { x with emol := v }
  | .kpct, v => { x with epct := v }
  | .kppm, v => { x with eppm := v }
  | .kppb, v => { x with eppb := v }
  | .kppt, v => { x with eppt := v }
  | .kppq, v => { x with eppq := v }

/-- Apply a function to every field. -/
def ExpMap.mapAll (f : Option Int → Option Int) (x : ExpMap) : ExpMap :=
  ⟨f x.e10, f x.eg, f x.em, f x.es, f x.eA, f x.eK, f x.ecd, f x.emol,
   f x.epct, f x.eppm, f x.eppb, f x.eppt, f x.eppq⟩

/-- `exponents[key] = -exponents[key]` over the present keys (absent keys
stay absent). -/
def ExpMap.negAll (x : ExpMap) : ExpMap := x.mapAll (Option.map (-·))

/-- `exponents[key] *= n` over the present keys. -/
def ExpMap.mulAll (x : ExpMap) (n : Int) : ExpMap := x.mapAll (Option.map (· * n))

/-- Merge one field for `a[k] = (a[k] || 0) + b[k]` over keys present in `b`. -/
def mergeField (g : Int → Int → Int) (a b : Option Int) : Option Int :=
  match b with
  | none => a
  | some vb => some (g (a.getD 0) vb)

/-- Pointwise combination driven by the second map's present keys. -/
def ExpMap.combine (g : Int → Int → Int) (a b : ExpMap) : ExpMap :=
  ⟨mergeField g a.e10 b.e10, mergeField g a.eg b.eg, mergeField g a.em b.em,
   mergeField g a.es b.es, mergeField g a.eA b.eA, mergeField g a.eK b.eK,
   mergeField g a.ecd b.ecd, mergeField g a.emol b.emol, mergeField g a.epct b.epct,
   mergeField g a.eppm b.eppm, mergeField g a.eppb b.eppb, mergeField g a.eppt b.eppt,
   mergeField g a.eppq b.eppq⟩

/-- `exponentsAfterAsterix[k] = (a[k] || 0) + b[k]` for the keys of `b`. -/
def ExpMap.addInto (a b : ExpMap) : ExpMap := a.combine (· + ·) b

/-- `exponentsAfterSlash[k] = (a[k] || 0) - b[k]` for the keys of `b`. -/
def ExpMap.subInto (a b : ExpMap) : ExpMap := a.combine (· - ·) b

/-- `exponents['10'] += e` (the `10` key is present in every successful term
result, so the present-key update is the reached behavior). -/
def ExpMap.add10 (x : ExpMap) (e : Int) : ExpMap :=
  x.set .k10 (x.e10.map (· + e))

/-- The vector `{'10': e}` built by the magnitude-only expression branch. -/
def ExpMap.single10 (e : Int) : ExpMap := ExpMap.empty.set .k10 (some e)

/-- The canonical key order of `_normalizeUnits`:
`10, g, m, s, A, K, cd, mol, %, ppm, ppb, ppt, ppq`. -/
def canonicalKeys : List Key :=
  [.k10, .kg, .km, .ks, .kA, .kK, .kcd, .kmol, .kpct, .kppm, .kppb, .kppt, .kppq]

/-- Character spelling of each canonical key. -/
def keyStr : Key → List Char
  | .k10 => ['1', '0']
  | .kg => ['g']
  | .km => ['m']
  | .ks => ['s']
  | .kA => ['A']
  | .kK => ['K']
  | .kcd => ['c', 'd']
  | .kmol => ['m', 'o', 'l']
  | .kpct => ['%']
  | .kppm => ['p', 'p', 'm']
  | .kppb => ['p', 'p', 'b']
  | .kppt => ['p', 'p', 't']
  | .kppq => ['p', 'p', 'q']

/-- Boolean prefix test, the model of `string.indexOf(token) === 0`
(structured so it reduces as soon as the concrete token is exhausted). -/
def isPre : List Char → List Char → Bool
  | [], _ => true
  | a :: as, l =>
    match l with
    | [] => false
    | b :: bs => a == b && isPre as bs

/-- The SI prefix table of `_parseBase`, in source (insertion) order,
including the empty prefix with offset `0`. -/
def preTable : List (List Char × Int) :=
  [(['Y'], 24), (['Z'], 21), (['E'], 18), (['P'], 15), (['T'], 12),
   (['G'], 9), (['M'], 6), (['k'], 3), (['h'], 2), (['d', 'a'], 1),
   ([], 0), (['d'], -1), (['c'], -2), (['m'], -3), (['μ'], -6),
   (['n'], -9), (['p'], -12), (['f'], -15), (['a'], -18), (['z'], -21),
   (['y'], -24)]

/-- Power-of-ten offset of a prefix (every selected prefix is in the table). -/
def preVal (p : List Char) : Int :=
  ((preTable.find? (fun q => q.1 == p)).map (·.2)).getD 0

/-- The seven base units, in source order. -/
def baseUnitNames : List (List Char) :=
  [['m'], ['g'], ['s'], ['A'], ['K'], ['m', 'o', 'l'], ['c', 'd']]

/-- The per-unit (dimensionless ratio) tokens, in source order. -/
def perUnitNames : List (List Char) :=
  [['%'], ['p', 'p', 'm'], ['p', 'p', 'b'], ['p', 'p', 't'], ['p', 'p', 'q']]

/-- The derived-unit table: name, exponent contributions over the canonical
keys, and whether the unit carries the Celsius conversion (the only
non-identity conversion in the source). -/
def derivedTable : List (List Char × List (Key × Int) × Bool) :=
  [(['L'], [(.k10, -3), (.km, 3)], false),
   (['r', 'a', 'd'], [], false),
   (['s', 'r'], [], false),
   (['H', 'z'], [(.ks, -1)], false),
   (['N'], [(.k10, 3), (.kg, 1), (.km, 1), (.ks, -2)], false),
   (['P', 'a'], [(.k10, 3), (.kg, 1), (.km, -1), (.ks, -2)], false),
   (['b', 'a', 'r'], [(.k10, 8), (.kg, 1), (.km, -1), (.ks, -2)], false),
   (['J'], [(.k10, 3), (.kg, 1), (.km, 2), (.ks, -2)], false),
   (['W'], [(.k10, 3), (.kg, 1), (.km, 2), (.ks, -3)], false),
   (['C'], [(.ks, 1), (.kA, 1)], false),
   (['V'], [(.k10, 3), (.kg, 1), (.km, 2), (.ks, -3), (.kA, -1)], false),
   (['F'], [(.k10, -3), (.kg, -1), (.km, -2), (.ks, 4), (.kA, 2)], false),
   (['Ω'], [(.k10, 3), (.kg, 1), (.km, 2), (.ks, -3), (.kA, -2)], false),
   (['S'], [(.k10, -3), (.kg, -1), (.km, -2), (.ks, 3), (.kA, 2)], false),
   (['W', 'b'], [(.k10, 3), (.kg, 1), (.km, 2), (.ks, -2), (.kA, -1)], false),
   (['T'], [(.k10, 3), (.kg, 1), (.ks, -2), (.kA, -1)], false),
   (['H'], [(.k10, 3), (.kg, 1), (.km, 2), (.ks, -2), (.kA, -2)], false),
   (['°', 'C'], [(.kK, 1)], true),
   (['l', 'm'], [(.kcd, 1)], false),
   (['l', 'x'], [(.km, -2), (.kcd, 1)], false),
   (['B', 'q'], [(.ks, -1)], false),
   (['G', 'y'], [(.km, 2), (.ks, -2)], false),
   (['S', 'v'], [(.km, 2), (.ks, -2)], false),
   (['k', 'a', 't'], [(.kmol, 1), (.ks, -1)], false)]

/-- Names of the derived units, in table order. -/
def derivedNames : List (List Char) := derivedTable.map (·.1)

/-- Units that may never follow a non-empty prefix: the per-units and `°C`. -/
def prefixlessUnits : List (List Char) := perUnitNames ++ [['°', 'C']]

/-- The full unit list `baseUnits ++ perUnits ++ derived` of `_parseBase`. -/
def unitsList : List (List Char) := baseUnitNames ++ perUnitNames ++ derivedNames

/-- The candidate `(prefix, unit)` pairs of `_parseBase`, in the order the
source accumulates them: non-empty prefixes × non-prefixless units whose
concatenation heads the input, then every unit alone. -/
def baseCandidates (s : List Char) : List (List Char × List Char) :=
  ((preTable.filter (fun p => p.1 ≠ [] && isPre p.1 s)).flatMap (fun p =>
    (unitsList.filter (fun u => !(prefixlessUnits.contains u) && isPre (p.1 ++ u) s)).map
      (fun u => (p.1, u))))
  ++ (unitsList.filter (fun u => isPre u s)).map (fun u => (([] : List Char), u))

/-- First candidate of maximal total length — the model of the source's
stable descending sort by `len(prefix) + len(unit)` followed by `[0]`. -/
def pickMax : List (List Char × List Char) → Option (List Char × List Char)
  | [] => none
  | c :: cs =>
    match pickMax cs with
    | none => some c
    | some b =>
      if b.1.length + b.2.length > c.1.length + c.2.length then some b else some c

/-- Mapping from a base or per-unit name to its canonical key. -/
def unitKey? (u : List Char) : Option Key :=
  if u = ['m'] then some .km
  else if u = ['g'] then some .kg
  else if u = ['s'] then some .ks
  else if u = ['A'] then some .kA
  else if u = ['K'] then some .kK
  else if u = ['m', 'o', 'l'] then some .kmol
  else if u = ['c', 'd'] then some .kcd
  else if u = ['%'] then some .kpct
  else if u = ['p', 'p', 'm'] then some .kppm
  else if u = ['p', 'p', 'b'] then some .kppb
  else if u = ['p', 'p', 't'] then some .kppt
  else if u = ['p', 'p', 'q'] then some .kppq
  else none

/-- The result payload of base, factor and term rules: an exponent vector and
a conversion function.  The only conversions the source composes are the
identity and the Celsius offset `x + 273.15`, so a conversion is modelled by
its count of Celsius offsets (`0` = identity, composition adds counts). -/
structure BaseVal where
  exps : ExpMap
  conv : Nat
  deriving DecidableEq, Repr

/-- Apply a conversion to a magnitude (NaN propagates; the identity applies
verbatim). -/
def convApply (n : Nat) (j : JSNum) : JSNum :=
  match j with
  | none => none
  | some d => if n = 0 then some d else some (d.add ⟨(27315 : Int) * n, 2⟩)

/-- `_parseBase`: longest `(prefix, unit)` match, exponent vector
`{10: prefixOffset}` merged with the unit's contribution (`unit: 1` for a
base or per-unit), and the unit's conversion. -/
def _parseBase (s : List Char) : PR BaseVal :=
  match pickMax (baseCandidates s) with
  | some (p, u) =>
    let consumed := p ++ u
    let e0 : ExpMap := ExpMap.empty.set .k10 (some (preVal p))
    match derivedTable.find? (fun q => q.1 == u) with
    | some q =>
      let exps := q.2.1.foldl (fun m kv => m.set kv.1 (some ((m.get kv.1).getD 0 + kv.2))) e0
      .ok consumed (s.drop consumed.length) ⟨exps, if q.2.2 then 1 else 0⟩
    | none =>
      match unitKey? u with
      | some k => .ok consumed (s.drop consumed.length) ⟨e0.set k (some 1), 0⟩
      | none => .fail [] s
  | none => .fail [] s

/-- `_parseFactor`: a base, optionally `^` and an integer exponent that
multiplies every exponent in the base's vector (conversion carried
through unchanged). -/
def _parseFactor (s : List Char) : PR BaseVal :=
  match _parseBase s with
  | .ok bc br bv =>
    match _parseChar br '^' with
    | .ok cc cr _ =>
      match _parseExponent cr with
      | .ok ec er ev => .ok (bc ++ cc ++ ec) er ⟨bv.exps.mulAll ev, bv.conv⟩
      | .fail ec _ => .fail (bc ++ cc ++ ec) s
    | .fail _ _ => .ok bc br bv
  | .fail c _ => .fail c s

mutual

/-- `_parseTerm`, fueled: a parenthesized term, or a factor optionally
continued by `* term` (exponents added) or `/ term` (exponents
subtracted); conversions compose in both cases. -/
def _parseTermF : Nat → List Char → PR BaseVal
  | 0, s => .fail [] s
  | fuel + 1, s =>
    match _parseChar s '(' with
    | .ok oc orest _ =>
      match _parseTermF fuel orest with
      | .ok tc tr tv =>
        match _parseChar tr ')' with
        | .ok cc cr _ => .ok (oc ++ tc ++ cc) cr tv
        | .fail cc _ => .fail (oc ++ tc ++ cc) s
      | .fail tc _ => .fail (oc ++ tc) s
    | .fail _ _ =>
      match _parseFactor s with
      | .ok fc fr fv =>
        match _parseCharTermF fuel '*' fr with
        | .ok ac ar av => .ok (fc ++ ac) ar ⟨fv.exps.addInto av.exps, fv.conv + av.conv⟩
        | .fail _ _ =>
          match _parseCharTermF fuel '/' fr with
          | .ok sc sr sv => .ok (fc ++ sc) sr ⟨fv.exps.subInto sv.exps, fv.conv + sv.conv⟩
          | .fail _ _ => .ok fc fr fv
      | .fail fc _ => .fail fc s

/-- `_parseCharTerm`, fueled: the given operator character, then a term. -/
def _parseCharTermF : Nat → Char → List Char → PR BaseVal
  | 0, _, s => .fail [] s
  | fuel + 1, ch, s =>
    match _parseChar s ch with
    | .ok cc cr _ =>
      match _parseTermF fuel cr with
      | .ok tc tr tv => .ok (cc ++ tc) tr tv
      | .fail tc _ => .fail (cc ++ tc) s
    | .fail c _ => .fail c s

end

/-- `_parseTerm` wrapper (fuel `length + 1` suffices: each recursion
consumes at least one character first). -/
def _parseTerm (s : List Char) : PR BaseVal := _parseTermF (s.length + 1) s

/-- `_parseCharTerm` wrapper. -/
def _parseCharTerm (s : List Char) (ch : Char) : PR BaseVal :=
  _parseCharTermF (s.length + 1) ch s

/-- `_parseAsterixTerm ::= * term`. -/
def _parseAsterixTerm (s : List Char) : PR BaseVal := _parseCharTerm s '*'

/-- `_parseSlashTerm ::= / term`. -/
def _parseSlashTerm (s : List Char) : PR BaseVal := _parseCharTerm s '/'

/-- Result of the magnitude rule: a significand and a power-of-ten exponent. -/
structure MagVal where
  significand : JSNum
  exponent : Int
  deriving DecidableEq, Repr

/-- `_parseMagnitude`: a significand, optionally `*10^`, `E` or `e` and an
integer exponent (absence of the suffix yields exponent `0`). -/
def _parseMagnitude (s : List Char) : PR MagVal :=
  match _parseSignificand s with
  | .ok sc sr sv =>
    let opOpt : Option (List Char) :=
      if isPre ['*', '1', '0', '^'] sr then some ['*', '1', '0', '^']
      else if sr.head? = some 'E' then some ['E']
      else if sr.head? = some 'e' then some ['e']
      else none
    match opOpt with
    | some op =>
      match _parseExponent (sr.drop op.length) with
      | .ok ec _ ev =>
        let consumed := sc ++ op ++ ec
        .ok consumed (s.drop consumed.length) ⟨sv, ev⟩
      | .fail ec _ => .fail (sc ++ op ++ ec) s
    | none => .ok sc sr ⟨sv, 0⟩
  | .fail c _ => .fail c s

/-- Result of the expression rule: a numeric magnitude (NaN possible) and an
exponent vector. -/
structure ExprVal where
  magnitude : JSNum
  exps : ExpMap
  deriving DecidableEq, Repr

/-- The operator-and-term continuation of `_parseExpression`: peel an
optional leading `*` or `/`, parse a term in the remainder, negate the
exponents for `/`, then fold a successfully parsed magnitude into the
result (its exponent added to the `10` entry, its significand pushed
through the term's conversion; with no magnitude the result magnitude is
NaN and the vector is untouched). -/
def exprTermPart (s mc mr : List Char) (mag? : Option MagVal) : PR ExprVal :=
  let op : List Char := if mr.head? = some '*' then ['*']
    else if mr.head? = some '/' then ['/'] else []
  let rest2 := if op = [] then mr else mr.drop 1
  match _parseTerm rest2 with
  | .ok tc tr tv =>
    let exps1 := if op = ['/'] then tv.exps.negAll else tv.exps
    match mag? with
    | some mv =>
      .ok (mc ++ op ++ tc) tr ⟨convApply tv.conv mv.significand, exps1.add10 mv.exponent⟩
    | none => .ok (mc ++ op ++ tc) tr ⟨none, exps1⟩
  | .fail tc _ => .fail (mc ++ op ++ tc) s

/-- `_parseExpression`, totalized: a magnitude alone when it consumed the
whole input, otherwise the operator-and-term continuation; a magnitude
failure that consumed nothing still tries the term branch.  On empty
input the source dereferences the absent magnitude result and throws a
`TypeError`; this totalized version collapses that corner into a plain
failure so the rest of the development can stay in `PR`, and
`_parseExpressionT` below records the throw faithfully. -/
def _parseExpression (s : List Char) : PR ExprVal :=
  match _parseMagnitude s with
  | .ok mc mr mv =>
    match mr with
    | [] => .ok mc mr ⟨mv.significand, ExpMap.single10 mv.exponent⟩
    | _ :: _ => exprTermPart s mc mr (some mv)
  | .fail mc mr =>
    if mc = [] then
      match mr with
      | [] => .fail mc mr
      | _ :: _ => exprTermPart s mc mr none
    else .fail mc s

/-- `_parseExpression` with its partiality made explicit: `none` is the
`TypeError` the source throws when a failed magnitude result (whose
`rest` — the whole input — is the falsy empty string) has its absent
`result.significand` dereferenced.  Every other path returns the
totalized outcome. -/
def _parseExpressionT (s : List Char) : Option (PR ExprVal) :=
  match _parseMagnitude s with
  | .ok mc mr mv =>
    match mr with
    | [] => some (.ok mc mr ⟨mv.significand, ExpMap.single10 mv.exponent⟩)
    | _ :: _ => some (exprTermPart s mc mr (some mv))
  | .fail mc mr =>
    if mc = [] then
      match mr with
      | [] => none
      | _ :: _ => some (exprTermPart s mc mr none)
    else some (.fail mc s)

/-- Rendering of the `10` exponent in the magnitude string (`undefined`
would be interpolated if the key were absent — unreachable). -/
def exp10Chars : Option Int → List Char
  | some e => intChars e
  | none => ['u', 'n', 'd', 'e', 'f', 'i', 'n', 'e', 'd']

/-- The magnitude output string: `JSON.stringify(magnitude)` followed by
`*10^exponent` unless the `10` entry is exactly `0`. -/
def renderMagnitude (mag : JSNum) (x : ExpMap) : List Char :=
  jsonNum mag ++ (if x.e10 ≠ some 0 then '*' :: '1' :: '0' :: '^' :: exp10Chars x.e10 else [])

/-- One unit token: the key, bare when its exponent is exactly `1`,
otherwise `key^exponent`. -/
def unitToken (x : ExpMap) (k : Key) : List Char :=
  keyStr k ++ (if x.get k ≠ some 1 then '^' :: (match x.get k with
      | some v => intChars v
      | none => ['u', 'n', 'd', 'e', 'f', 'i', 'n', 'e', 'd'])
    else [])

/-- The canonically ordered keys present in the vector (`hasOwnProperty`). -/
def presentKeys (x : ExpMap) : List Key :=
  canonicalKeys.filter (fun k => (x.get k).isSome)

/-- The unit output string: the present keys other than `10`, in canonical
order, rendered and joined by `*`. -/
def renderUnits (x : ExpMap) : List Char :=
  List.intercalate ['*'] (((presentKeys x).filter (fun k => k ≠ Key.k10)).map (unitToken x))

/-- The output record of `_normalizeUnits`. -/
structure NormResult where
  magnitude : List Char
  units : List Char
  deriving DecidableEq, Repr

/-- `_normalizeUnits` on a character cursor: strip every space, short-circuit
the empty string, otherwise parse an expression and render the magnitude
and unit strings.  A failure keeps the original (unstripped) string as
`rest`, as the source's prebuilt failure object does. -/
def _normalizeUnitsL (s0 : List Char) : PR NormResult :=
  let s := s0.filter (fun c => c ≠ ' ')
  if s = [] then .ok [] [] ⟨[], []⟩
  else
    match _parseExpression s with
    | .ok c r v => .ok c r ⟨renderMagnitude v.magnitude v.exps, renderUnits v.exps⟩
    | .fail c _ => .fail c s0

/-- The top-level error message, carrying the consumed prefix and the
original input. -/
def errMsg (consumed orig : List Char) : List Char :=
  ('U' :: 'n' :: 'a' :: 'b' :: 'l' :: 'e' :: ' ' :: 't' :: 'o' :: ' ' :: 'p' :: 'a' :: 'r' :: 's' :: 'e' :: ' ' :: 'a' :: 'f' :: 't' :: 'e' :: 'r' :: ' ' :: '\'' :: [])
  ++ consumed
  ++ ('\'' :: ' ' :: 'i' :: 'n' :: ' ' :: '\'' :: [])
  ++ orig
  ++ ('\'' :: '.' :: ' ' :: 'A' :: 'r' :: 'e' :: ' ' :: 'y' :: 'o' :: 'u' :: ' ' :: 's' :: 'u' :: 'r' :: 'e' :: ' ' :: 'm' :: 'e' :: 't' :: 'r' :: 'i' :: 'c' :: ' ' :: 'u' :: 'n' :: 'i' :: 't' :: 's' :: ' ' :: 'a' :: 'r' :: 'e' :: ' ' :: 'b' :: 'e' :: 'i' :: 'n' :: 'g' :: ' ' :: 'u' :: 's' :: 'e' :: 'd' :: '?' :: [])

/-- `normalizeUnits`, the public entry point: on success glue magnitude and
units (space collapsed when the units are empty or exactly `%`), on failure
raise the descriptive error (modelled as `Except.error`).  The throttling
decorator the source routes the call through is an external pass-through
collaborator and is modelled as direct application. -/
def normalizeUnits (input : String) : Except String String :=
  match _normalizeUnitsL input.data with
  | .ok _ _ v =>
    .ok (String.mk (if v.magnitude = [] && v.units = [] then []
      else v.magnitude ++ (if v.units = ['%'] || v.units = [] then [] else [' ']) ++ v.units))
  | .fail c _ => .error (String.mk (errMsg c input.data))

/-- The exponent vector `{10: 0, k: v}` produced by parsing one unit token
`k^v` (or bare `k` when `v = 1`). -/
def factorMap (k : Key) (v : Int) : ExpMap :=
  (ExpMap.empty.set .k10 (some 0)).set k (some v)

/-- The exponent vector produced by parsing a `*`-joined chain of unit
tokens, combined exactly as `_parseTerm` combines a factor with an
asterix-term. -/
def termMapOf : List (Key × Int) → ExpMap
  | [] => ExpMap.empty
  | [kv] => factorMap kv.1 kv.2
  | kv :: rest => (factorMap kv.1 kv.2).addInto (termMapOf rest)

/-- One rendered unit token for a known exponent value. -/
def tokenChars (k : Key) (v : Int) : List Char :=
  keyStr k ++ (if v ≠ 1 then '^' :: intChars v else [])

/-- Token-list renderer. -/
def renderTokensList (l : List (Key × Int)) : List Char :=
  List.intercalate ['*'] (l.map (fun kv => tokenChars kv.1 kv.2))

/-- The present non-`10` keys of a vector with their exponents. -/
def presentPairs (x : ExpMap) : List (Key × Int) :=
  ((presentKeys x).filter (fun k => k ≠ Key.k10)).map (fun k => (k, (x.get k).getD 0))

/-- Guard for the idempotence statement: after space stripping the input is
empty, or the parsed expression's magnitude is an actual number (the
grammar produced no NaN).  A failed parse passes vacuously (the wrapper
then raises). -/
def magnitudeResolved (l : List Char) : Bool :=
  let s := l.filter (fun c => c ≠ ' ')
  s = [] ||
    (match _parseExpression s with
     | .ok _ _ v => v.magnitude.isSome
     | .fail _ _ => true)

/-- Second guard for the idempotence statement: the parsed magnitude, if
any, lies inside JavaScript's plain-decimal rendering range (a magnitude
such as `1e-7` prints in exponential notation, which the grammar does not
read back to the same string). -/
def magnitudePlain (l : List Char) : Bool :=
  let s := l.filter (fun c => c ≠ ' ')
  s = [] ||
    (match _parseExpression s with
     | .ok _ _ v =>
       match v.magnitude with
       | some d => plainRange d
       | none => true
     | .fail _ _ => true)

/-!  ## Cursor bookkeeping invariants

For every grammar rule: a success satisfies `consumed ++ rest = input`,
while a failure leaves `rest` equal to the whole input and reports a
`consumed` marker that is a prefix of the input (the furthest attempted
match), so `consumed ++ rest` differs from the input whenever a failure
consumed anything. -/

/-- The invariant packaged per outcome. -/
def CursorInv {α : Type} (s : List Char) : PR α → Prop
  | .ok c r _ => c ++ r = s
  | .fail c r => r = s ∧ c <+: s

theorem inv_parseChar (s : List Char) (c : Char) : CursorInv s (_parseChar s c) := by
  match s with
  | [] => exact ⟨rfl, List.nil_prefix⟩
  | x :: rest =>
    by_cases h : c = x
    · simp [_parseChar, h, CursorInv]
    · simp [_parseChar, h, CursorInv, List.nil_prefix]

theorem inv_parseDigits (s : List Char) : CursorInv s (_parseDigits s) := by
  unfold _parseDigits
  by_cases h : s.takeWhile isDigitChar = []
  · simp [h, CursorInv, List.nil_prefix]
  · simp [h, CursorInv, List.takeWhile_append_dropWhile]

/-- A prefix of the input plus the matching drop reassembles the input. -/
theorem append_drop_of_prefix {l s : List Char} (h : l <+: s) :
    l ++ s.drop l.length = s := by
  obtain ⟨t, rfl⟩ := h
  simp

/-- Prefix composition through an already matched head. -/
theorem prefix_through {pc pr l s : List Char} (h : pc ++ pr = s) (hl : l <+: pr) :
    pc ++ l <+: s := by
  obtain ⟨t, rfl⟩ := hl
  exact ⟨t, by simpa using h⟩

theorem inv_parseDotDigits (s : List Char) : CursorInv s (_parseDotDigits s) := by
  unfold _parseDotDigits
  split
  case _ pc pr u hp =>
    have hc : pc ++ pr = s := by
      have h0 := inv_parseChar s '.'
      rw [hp] at h0
      exact h0
    have hd := inv_parseDigits pr
    have hpre : pc ++ (_parseDigits pr).consumed <+: s := by
      cases hdg : _parseDigits pr with
      | ok dc dr dv =>
        rw [hdg] at hd
        exact prefix_through hc ⟨dr, hd⟩
      | fail dc dr =>
        rw [hdg] at hd
        exact prefix_through hc hd.2
    show (pc ++ (_parseDigits pr).consumed) ++ _ = s
    exact append_drop_of_prefix hpre
  case _ hp => exact ⟨rfl, List.nil_prefix⟩

theorem inv_parseIntegerF (fuel : Nat) (s : List Char) :
    CursorInv s (_parseIntegerF fuel s) := by
  induction fuel generalizing s with
  | zero => exact ⟨rfl, List.nil_prefix⟩
  | succ fuel ih =>
    unfold _parseIntegerF
    split
    case _ pc pr u hp =>
      have hc : pc ++ pr = s := by
        have h0 := inv_parseChar s '+'; rw [hp] at h0; exact h0
      have hin := ih pr
      split
      case _ c r v hi =>
        rw [hi] at hin
        show pc ++ c ++ r = s
        rw [List.append_assoc, hin]; exact hc
      case _ c r hi =>
        rw [hi] at hin
        exact ⟨rfl, prefix_through hc hin.2⟩
    case _ hp =>
      split
      case _ mc mr u hm =>
        have hc : mc ++ mr = s := by
          have h0 := inv_parseChar s '-'; rw [hm] at h0; exact h0
        have hin := ih mr
        split
        case _ c r v hi =>
          rw [hi] at hin
          show mc ++ c ++ r = s
          rw [List.append_assoc, hin]; exact hc
        case _ c r hi =>
          rw [hi] at hin
          exact ⟨rfl, prefix_through hc hin.2⟩
      case _ hm =>
        have hd := inv_parseDigits s
        split
        case _ c r v hdg => rw [hdg] at hd; exact hd
        case _ c r hdg => rw [hdg] at hd; exact ⟨rfl, hd.2⟩

theorem inv_parseInteger (s : List Char) : CursorInv s (_parseInteger s) :=
  inv_parseIntegerF _ s

theorem inv_parseExponent (s : List Char) : CursorInv s (_parseExponent s) :=
  inv_parseInteger s

theorem inv_parseDecimalF (fuel : Nat) (s : List Char) :
    CursorInv s (_parseDecimalF fuel s) := by
  induction fuel generalizing s with
  | zero => exact ⟨rfl, List.nil_prefix⟩
  | succ fuel ih =>
    unfold _parseDecimalF
    split
    case _ pc pr u hp =>
      have hc : pc ++ pr = s := by
        have h0 := inv_parseChar s '+'; rw [hp] at h0; exact h0
      have hin := ih pr
      split
      case _ c r v hi =>
        rw [hi] at hin
        show pc ++ c ++ r = s
        rw [List.append_assoc, hin]; exact hc
      case _ c r hi =>
        rw [hi] at hin
        exact ⟨rfl, prefix_through hc hin.2⟩
    case _ hp =>
      split
      case _ mc mr u hm =>
        have hc : mc ++ mr = s := by
          have h0 := inv_parseChar s '-'; rw [hm] at h0; exact h0
        have hin := ih mr
        split
        case _ c r v hi =>
          rw [hi] at hin
          show mc ++ c ++ r = s
          rw [List.append_assoc, hin]; exact hc
        case _ c r hi =>
          rw [hi] at hin
          exact ⟨rfl, prefix_through hc hin.2⟩
      case _ hm =>
        have hd := inv_parseDigits s
        have hdd := inv_parseDotDigits (_parseDigits s).rest
        dsimp only
        split
        case _ c2 r2 v2 hddm =>
          rw [hddm] at hdd
          cases hdg : _parseDigits s with
          | ok dc dr dv =>
            rw [hdg] at hd
            rw [hdg] at hdd
            simp only [PR.rest] at hdd
            simp only [hdg, PR.consumed, PR.rest]
            show dc ++ c2 ++ r2 = s
            rw [List.append_assoc, hdd]; exact hd
          | fail dc dr =>
            rw [hdg] at hd
            rw [hdg] at hdd
            simp only [PR.rest] at hdd
            simp only [hdg, PR.consumed, PR.rest]
            show dc ++ c2 ++ r2 = s
            have hdc : dc = [] := by
              unfold _parseDigits at hdg
              by_cases ht : s.takeWhile isDigitChar = [] <;> simp [ht] at hdg
              exact hdg.1
            have h2 : c2 ++ r2 = dr := hdd
            rw [hdc, List.nil_append, ← hd.1]
            exact h2
        case _ c2 r2 hddm =>
          split
          case _ dc dr dv hdg => rw [hdg] at hd; exact hd
          case _ dc dr hdg => rw [hdg] at hd; exact ⟨rfl, hd.2⟩

theorem inv_parseDecimal (s : List Char) : CursorInv s (_parseDecimal s) :=
  inv_parseDecimalF _ s

theorem inv_parseSignificand (s : List Char) : CursorInv s (_parseSignificand s) :=
  inv_parseDecimal s

/-- The Boolean prefix test agrees with the prefix relation. -/
theorem isPre_iff {l s : List Char} : isPre l s = true ↔ l <+: s := by
  induction l generalizing s with
  | nil => simp [isPre, List.nil_prefix]
  | cons a as ih =>
    cases s with
    | nil =>
      simp only [isPre]
      constructor
      · intro h; cases h
      · intro h
        exact absurd (List.eq_nil_of_prefix_nil h) (by simp)
    | cons b bs =>
      simp only [isPre, Bool.and_eq_true, beq_iff_eq]
      rw [ih]
      constructor
      · rintro ⟨rfl, h⟩
        exact List.cons_prefix_cons.mpr ⟨rfl, h⟩
      · intro h
        obtain ⟨rfl, h2⟩ := List.cons_prefix_cons.mp h
        exact ⟨rfl, h2⟩

/-- Every accumulated candidate pair heads the input. -/
theorem mem_baseCandidates_pre {s : List Char} {c : List Char × List Char}
    (h : c ∈ baseCandidates s) : (c.1 ++ c.2) <+: s := by
  unfold baseCandidates at h
  rcases List.mem_append.mp h with h1 | h2
  · obtain ⟨p, hp, hu⟩ := List.mem_flatMap.mp h1
    obtain ⟨u, hu2, rfl⟩ := List.mem_map.mp hu
    have := (List.mem_filter.mp hu2).2
    have hpre : isPre (p.1 ++ u) s := by
      simpa using (Bool.and_eq_true_iff.mp this).2
    exact isPre_iff.mp hpre
  · obtain ⟨u, hu2, rfl⟩ := List.mem_map.mp h2
    have hpre : isPre u s := (List.mem_filter.mp hu2).2
    simpa using isPre_iff.mp hpre

/-- A candidate with a non-empty prefix never carries a prefixless unit. -/
theorem mem_baseCandidates_prefixless {s p u : List Char}
    (h : (p, u) ∈ baseCandidates s) (hp : p ≠ []) :
    prefixlessUnits.contains u = false := by
  unfold baseCandidates at h
  rcases List.mem_append.mp h with h1 | h2
  · obtain ⟨q, hq, hu⟩ := List.mem_flatMap.mp h1
    obtain ⟨u', hu2, he⟩ := List.mem_map.mp hu
    obtain ⟨rfl, rfl⟩ : q.1 = p ∧ u' = u := by
      constructor <;> cases he <;> rfl
    have := (List.mem_filter.mp hu2).2
    simpa using (Bool.and_eq_true_iff.mp this).1
  · obtain ⟨u', hu2, he⟩ := List.mem_map.mp h2
    exact absurd (by cases he; rfl) hp

/-- Completeness of the candidate accumulation for non-empty prefixes. -/
theorem baseCandidates_complete {s p u : List Char} {v : Int}
    (hp : (p, v) ∈ preTable) (hu : u ∈ unitsList) (hne : p ≠ [])
    (hpl : prefixlessUnits.contains u = false)
    (hpre : (p ++ u) <+: s) : (p, u) ∈ baseCandidates s := by
  unfold baseCandidates
  have hpl2 : u ∉ prefixlessUnits := by simpa using hpl
  refine List.mem_append.mpr (.inl (List.mem_flatMap.mpr ⟨(p, v), ?_, ?_⟩))
  · refine List.mem_filter.mpr ⟨hp, ?_⟩
    have hp2 : p <+: s := ((List.prefix_append p u).trans hpre)
    simp [hne, isPre_iff.mpr hp2]
  · exact List.mem_map.mpr ⟨u, List.mem_filter.mpr ⟨hu, by
      simp [hpl2, isPre_iff.mpr hpre]⟩, rfl⟩

/-- Completeness of the candidate accumulation for the empty prefix. -/
theorem baseCandidates_complete_bare {s u : List Char}
    (hu : u ∈ unitsList) (hpre : u <+: s) : (([] : List Char), u) ∈ baseCandidates s := by
  unfold baseCandidates
  exact List.mem_append.mpr (.inr (List.mem_map.mpr ⟨u,
    List.mem_filter.mpr ⟨hu, isPre_iff.mpr hpre⟩, rfl⟩))

/-- `pickMax` returns an element of the list. -/
theorem pickMax_mem {l : List (List Char × List Char)} {c : List Char × List Char}
    (h : pickMax l = some c) : c ∈ l := by
  induction l with
  | nil => cases h
  | cons a as ih =>
    cases hm : pickMax as with
    | none =>
      simp only [pickMax, hm, Option.some.injEq] at h
      subst h
      exact List.mem_cons_self a as
    | some b =>
      simp only [pickMax, hm] at h
      by_cases hgt : b.1.length + b.2.length > a.1.length + a.2.length
      · rw [if_pos hgt] at h
        simp only [Option.some.injEq] at h
        subst h
        exact List.mem_cons_of_mem a (ih hm)
      · rw [if_neg hgt] at h
        simp only [Option.some.injEq] at h
        subst h
        exact List.mem_cons_self a as

/-- `pickMax` yields `none` exactly on the empty list. -/
theorem pickMax_eq_none {l : List (List Char × List Char)} (h : pickMax l = none) :
    l = [] := by
  cases l with
  | nil => rfl
  | cons a as =>
    exfalso
    cases hm : pickMax as with
    | none => simp [pickMax, hm] at h
    | some b =>
      simp only [pickMax, hm] at h
      by_cases hgt : b.1.length + b.2.length > a.1.length + a.2.length
      · rw [if_pos hgt] at h; cases h
      · rw [if_neg hgt] at h; cases h

/-- `pickMax` returns a pair of maximal total length. -/
theorem pickMax_maximal {l : List (List Char × List Char)} :
    ∀ {c : List Char × List Char}, pickMax l = some c →
    ∀ q ∈ l, q.1.length + q.2.length ≤ c.1.length + c.2.length := by
  induction l with
  | nil => intro c h q hq; cases hq
  | cons a as ih =>
    intro c h q hq
    cases hm : pickMax as with
    | none =>
      simp only [pickMax, hm, Option.some.injEq] at h
      subst h
      have := pickMax_eq_none hm
      subst this
      rcases List.mem_cons.mp hq with rfl | h2
      · exact le_refl _
      · cases h2
    | some b =>
      simp only [pickMax, hm] at h
      by_cases hgt : b.1.length + b.2.length > a.1.length + a.2.length
      · rw [if_pos hgt] at h
        simp only [Option.some.injEq] at h
        subst h
        rcases List.mem_cons.mp hq with rfl | h2
        · exact le_of_lt hgt
        · exact ih hm q h2
      · rw [if_neg hgt] at h
        simp only [Option.some.injEq] at h
        subst h
        rcases List.mem_cons.mp hq with rfl | h2
        · exact le_refl _
        · exact le_trans (ih hm q h2) (le_of_not_gt hgt)

theorem inv_parseBase (s : List Char) : CursorInv s (_parseBase s) := by
  unfold _parseBase
  split
  case _ p u hpick =>
    have hmem := pickMax_mem hpick
    have hpre : p ++ u <+: s := mem_baseCandidates_pre hmem
    split
    case _ q hq =>
      show (p ++ u) ++ _ = s
      exact append_drop_of_prefix hpre
    case _ hq =>
      split
      case _ k hk =>
        show (p ++ u) ++ _ = s
        exact append_drop_of_prefix hpre
      case _ hk => exact ⟨rfl, List.nil_prefix⟩
  case _ hpick => exact ⟨rfl, List.nil_prefix⟩

theorem inv_parseFactor (s : List Char) : CursorInv s (_parseFactor s) := by
  unfold _parseFactor
  split
  case _ bc br bv hb =>
    have hbc : bc ++ br = s := by
      have h0 := inv_parseBase s; rw [hb] at h0; exact h0
    split
    case _ cc cr u hcaret =>
      have hcc : cc ++ cr = br := by
        have h0 := inv_parseChar br '^'; rw [hcaret] at h0; exact h0
      have hex := inv_parseExponent cr
      split
      case _ ec er ev hev =>
        rw [hev] at hex
        show bc ++ cc ++ ec ++ er = s
        rw [List.append_assoc, List.append_assoc, hex, hcc]
        exact hbc
      case _ ec er hev =>
        rw [hev] at hex
        refine ⟨rfl, ?_⟩
        have h1 : cc ++ ec <+: br := prefix_through hcc hex.2
        have : bc ++ (cc ++ ec) <+: s := prefix_through hbc h1
        simpa [List.append_assoc] using this
    case _ hcaret => exact hbc
  case _ c r hb =>
    have h0 := inv_parseBase s; rw [hb] at h0
    exact ⟨rfl, h0.2⟩

theorem inv_parseTermF (fuel : Nat) :
    (∀ s, CursorInv s (_parseTermF fuel s)) ∧
    (∀ ch s, CursorInv s (_parseCharTermF fuel ch s)) := by
  induction fuel with
  | zero => exact ⟨fun s => ⟨rfl, List.nil_prefix⟩, fun ch s => ⟨rfl, List.nil_prefix⟩⟩
  | succ fuel ih =>
    obtain ⟨ihT, ihC⟩ := ih
    constructor
    · intro s
      unfold _parseTermF
      split
      case _ oc orest u hopen =>
        have hoc : oc ++ orest = s := by
          have h0 := inv_parseChar s '('; rw [hopen] at h0; exact h0
        have hin := ihT orest
        split
        case _ tc tr tv ht =>
          rw [ht] at hin
          split
          case _ cc cr u2 hclose =>
            have hcc : cc ++ cr = tr := by
              have h0 := inv_parseChar tr ')'; rw [hclose] at h0; exact h0
            show oc ++ tc ++ cc ++ cr = s
            rw [List.append_assoc, List.append_assoc, hcc, hin]
            exact hoc
          case _ cc cr hclose =>
            have h0 := inv_parseChar tr ')'; rw [hclose] at h0
            refine ⟨rfl, ?_⟩
            have h1 : tc ++ cc <+: orest := prefix_through hin h0.2
            have : oc ++ (tc ++ cc) <+: s := prefix_through hoc h1
            simpa [List.append_assoc] using this
        case _ tc ht =>
          rw [ht] at hin
          exact ⟨rfl, prefix_through hoc hin.2⟩
      case _ hopen =>
        split
        case _ fc fr fv hf =>
          have hfc : fc ++ fr = s := by
            have h0 := inv_parseFactor s; rw [hf] at h0; exact h0
          have hA := ihC '*' fr
          split
          case _ ac ar av ha =>
            rw [ha] at hA
            show fc ++ ac ++ ar = s
            rw [List.append_assoc, hA]; exact hfc
          case _ ha =>
            have hS := ihC '/' fr
            split
            case _ sc sr sv hs =>
              rw [hs] at hS
              show fc ++ sc ++ sr = s
              rw [List.append_assoc, hS]; exact hfc
            case _ hs => exact hfc
        case _ fc hf =>
          have h0 := inv_parseFactor s; rw [hf] at h0
          exact ⟨rfl, h0.2⟩
    · intro ch s
      unfold _parseCharTermF
      split
      case _ cc cr u hc =>
        have hcc : cc ++ cr = s := by
          have h0 := inv_parseChar s ch; rw [hc] at h0; exact h0
        have hin := ihT cr
        split
        case _ tc tr tv ht =>
          rw [ht] at hin
          show cc ++ tc ++ tr = s
          rw [List.append_assoc, hin]; exact hcc
        case _ tc ht =>
          rw [ht] at hin
          exact ⟨rfl, prefix_through hcc hin.2⟩
      case _ c r hc =>
        have h0 := inv_parseChar s ch; rw [hc] at h0
        exact ⟨rfl, h0.2⟩

theorem inv_parseTerm (s : List Char) : CursorInv s (_parseTerm s) :=
  (inv_parseTermF _).1 s

theorem inv_parseCharTerm (s : List Char) (ch : Char) : CursorInv s (_parseCharTerm s ch) :=
  (inv_parseTermF _).2 ch s

theorem inv_parseAsterixTerm (s : List Char) : CursorInv s (_parseAsterixTerm s) :=
  inv_parseCharTerm s '*'

theorem inv_parseSlashTerm (s : List Char) : CursorInv s (_parseSlashTerm s) :=
  inv_parseCharTerm s '/'

/-- Prefix extension on the left. -/
theorem prefix_append_both {l r x : List Char} (h : l <+: r) : x ++ l <+: x ++ r := by
  obtain ⟨t, rfl⟩ := h
  exact ⟨t, by simp⟩

theorem inv_parseMagnitude (s : List Char) : CursorInv s (_parseMagnitude s) := by
  unfold _parseMagnitude
  split
  case _ sc sr sv hsig =>
    have hsc : sc ++ sr = s := by
      have h0 := inv_parseSignificand s; rw [hsig] at h0; exact h0
    dsimp only
    split
    case _ op hop =>
      have hoppre : op <+: sr := by
        split at hop
        case _ hc =>
          cases hop
          exact isPre_iff.mp hc
        case _ hc =>
          split at hop
          case _ hE =>
            cases hop
            rcases sr with _ | ⟨c, t⟩
            · cases hE
            · cases hE; exact ⟨t, rfl⟩
          case _ hE =>
            split at hop
            case _ he =>
              cases hop
              rcases sr with _ | ⟨c, t⟩
              · cases he
              · cases he; exact ⟨t, rfl⟩
            case _ he => cases hop
      have hsrop : op ++ sr.drop op.length = sr := append_drop_of_prefix hoppre
      have hex := inv_parseExponent (sr.drop op.length)
      split
      case _ ec er ev hev =>
        rw [hev] at hex
        have hcpre : sc ++ op ++ ec <+: s := by
          have h1 : op ++ ec <+: op ++ sr.drop op.length := prefix_append_both ⟨er, hex⟩
          rw [hsrop] at h1
          have h3 := prefix_through hsc h1
          simpa [List.append_assoc] using h3
        show (sc ++ op ++ ec) ++ _ = s
        exact append_drop_of_prefix hcpre
      case _ ec er hev =>
        rw [hev] at hex
        refine ⟨rfl, ?_⟩
        have h1 : op ++ ec <+: op ++ sr.drop op.length := prefix_append_both hex.2
        rw [hsrop] at h1
        have h3 := prefix_through hsc h1
        simpa [List.append_assoc] using h3
    case _ hop => exact hsc
  case _ c r hsig =>
    have h0 := inv_parseSignificand s; rw [hsig] at h0
    exact ⟨rfl, h0.2⟩

/-- Cursor invariant of the operator-and-term continuation, given the pieces
reassemble the input. -/
theorem inv_exprTermPart (s mc mr : List Char) (mag? : Option MagVal)
    (hmc : mc ++ mr = s) : CursorInv s (exprTermPart s mc mr mag?) := by
  unfold exprTermPart
  dsimp only
  have hkey : ∀ (op rest2 : List Char), mc ++ (op ++ rest2) = s →
      ∀ g : BaseVal → ExprVal, CursorInv s
        (match _parseTerm rest2 with
          | .ok tc tr tv => .ok (mc ++ op ++ tc) tr (g tv)
          | .fail tc _ => .fail (mc ++ op ++ tc) s) := by
    intro op rest2 hsplit g
    have hterm := inv_parseTerm rest2
    split
    case _ tc tr tv ht =>
      rw [ht] at hterm
      show mc ++ op ++ tc ++ tr = s
      simp only [List.append_assoc]
      rw [hterm]
      simpa [List.append_assoc] using hsplit
    case _ tc tr ht =>
      rw [ht] at hterm
      refine ⟨rfl, ?_⟩
      have h1 : op ++ tc <+: op ++ rest2 := prefix_append_both hterm.2
      have := prefix_through hsplit h1
      simpa [List.append_assoc] using this
  rcases mr with _ | ⟨c, t⟩
  · cases mag? with
    | some mv =>
      exact hkey [] [] (by simpa using hmc) (fun tv =>
        ⟨convApply tv.conv mv.significand, tv.exps.add10 mv.exponent⟩)
    | none =>
      exact hkey [] [] (by simpa using hmc) (fun tv => ⟨none, tv.exps⟩)
  · by_cases hstar : c = '*'
    · subst hstar
      cases mag? with
      | some mv =>
        exact hkey ['*'] t (by simpa using hmc) (fun tv =>
          ⟨convApply tv.conv mv.significand, tv.exps.add10 mv.exponent⟩)
      | none =>
        exact hkey ['*'] t (by simpa using hmc) (fun tv => ⟨none, tv.exps⟩)
    · by_cases hslash : c = '/'
      · subst hslash
        cases mag? with
        | some mv =>
          exact hkey ['/'] t (by simpa using hmc) (fun tv =>
            ⟨convApply tv.conv mv.significand, tv.exps.negAll.add10 mv.exponent⟩)
        | none =>
          exact hkey ['/'] t (by simpa using hmc) (fun tv => ⟨none, tv.exps.negAll⟩)
      · simp only [List.head?_cons]
        have h1 : ¬(some c = some '*') := by simp [hstar]
        have h2 : ¬(some c = some '/') := by simp [hslash]
        rw [if_neg h1, if_neg h2]
        cases mag? with
        | some mv =>
          exact hkey [] (c :: t) (by simpa using hmc) (fun tv =>
            ⟨convApply tv.conv mv.significand, tv.exps.add10 mv.exponent⟩)
        | none =>
          exact hkey [] (c :: t) (by simpa using hmc) (fun tv => ⟨none, tv.exps⟩)

theorem inv_parseExpression (s : List Char) : CursorInv s (_parseExpression s) := by
  unfold _parseExpression
  split
  case _ mc mr mv hmag =>
    have hmc : mc ++ mr = s := by
      have h0 := inv_parseMagnitude s; rw [hmag] at h0; exact h0
    cases mr with
    | nil => exact hmc
    | cons c t => exact inv_exprTermPart s mc (c :: t) (some mv) hmc
  case _ mc mr hmag =>
    have h0 := inv_parseMagnitude s
    rw [hmag] at h0
    by_cases hmc : mc = []
    · rw [if_pos hmc]
      cases mr with
      | nil => exact h0
      | cons c t =>
        subst hmc
        exact inv_exprTermPart s [] (c :: t) none (by simpa using h0.1)
    · rw [if_neg hmc]
      exact ⟨rfl, h0.2⟩

/-- Structure of a `_parseBase` success: the picked candidate is a member of
maximal total length and the cursor advances past it. -/
theorem parseBase_ok_shape {s c r : List Char} {v : BaseVal}
    (h : _parseBase s = .ok c r v) :
    ∃ p u, (p, u) ∈ baseCandidates s ∧ c = p ++ u ∧ r = s.drop (p ++ u).length ∧
      ∀ q ∈ baseCandidates s, q.1.length + q.2.length ≤ p.length + u.length := by
  unfold _parseBase at h
  split at h
  case _ p u hpick =>
    refine ⟨p, u, pickMax_mem hpick, ?_⟩
    have hmax := fun q hq => pickMax_maximal hpick q hq
    split at h
    case _ q hq => cases h; exact ⟨rfl, rfl, hmax⟩
    case _ hq =>
      split at h
      case _ k hk => cases h; exact ⟨rfl, rfl, hmax⟩
      case _ hk => cases h
  case _ hpick => cases h

/-- Structure of a `_parseBase` failure: nothing consumed, input untouched. -/
theorem parseBase_fail_shape {s c r : List Char}
    (h : _parseBase s = .fail c r) : c = [] ∧ r = s := by
  unfold _parseBase at h
  split at h
  case _ p u hpick =>
    split at h
    case _ q hq => cases h
    case _ hq =>
      split at h
      case _ k hk => cases h
      case _ hk => cases h; exact ⟨rfl, rfl⟩
  case _ hpick => cases h; exact ⟨rfl, rfl⟩

/-- C5. `_parseBase` implements greedy longest prefix-plus-unit matching:
every candidate pair heads the input and pairs with a non-empty prefix
exclude the prefixless units; the candidate set is complete for both the
prefixed and the bare readings; a success consumes a candidate of maximal
total length; `mol` is read as the three-character base unit whatever
follows; and a failure consumes nothing. -/
theorem claim_C5 :
    (∀ (s : List Char) (c : List Char × List Char), c ∈ baseCandidates s →
      (c.1 ++ c.2) <+: s ∧ (c.1 ≠ [] → c.2 ∉ prefixlessUnits)) ∧
    (∀ (s p u : List Char) (v : Int), (p, v) ∈ preTable → u ∈ unitsList → p ≠ [] →
      u ∉ prefixlessUnits → (p ++ u) <+: s → (p, u) ∈ baseCandidates s) ∧
    (∀ (s u : List Char), u ∈ unitsList → u <+: s →
      (([] : List Char), u) ∈ baseCandidates s) ∧
    (∀ (s c r : List Char) (v : BaseVal), _parseBase s = .ok c r v →
      ∃ p u, (p, u) ∈ baseCandidates s ∧ c = p ++ u ∧
        ∀ q ∈ baseCandidates s, q.1.length + q.2.length ≤ p.length + u.length) ∧
    (∀ rest : List Char, _parseBase ('m' :: 'o' :: 'l' :: rest) =
      .ok ['m', 'o', 'l'] rest ⟨(ExpMap.empty.set .k10 (some 0)).set .kmol (some 1), 0⟩) ∧
    (∀ (s c r : List Char), _parseBase s = .fail c r → c = [] ∧ r = s) := by
  refine ⟨?_, ?_, ?_, ?_, ?_, ?_⟩
  · intro s c hc
    refine ⟨mem_baseCandidates_pre hc, fun hne => ?_⟩
    have := mem_baseCandidates_prefixless (s := s) (p := c.1) (u := c.2) (by simpa using hc) hne
    simpa using this
  · intro s p u v hp hu hne hpl hpre
    exact baseCandidates_complete hp hu hne (by simpa using hpl) hpre
  · intro s u hu hpre
    exact baseCandidates_complete_bare hu hpre
  · intro s c r v h
    obtain ⟨p, u, hm, hc, _, hmax⟩ := parseBase_ok_shape h
    exact ⟨p, u, hm, hc, hmax⟩
  · intro rest; rfl
  · intro s c r h
    exact parseBase_fail_shape h

/-- Witness for C5 at concrete inputs: `kPa` picks the maximal pair and
`qPa` fails consuming nothing. -/
theorem claim_C5_witness :
    (∃ p u, (p, u) ∈ baseCandidates ('k' :: 'P' :: 'a' :: []) ∧ ['k', 'P', 'a'] = p ++ u ∧
      ∀ q ∈ baseCandidates ('k' :: 'P' :: 'a' :: []),
        q.1.length + q.2.length ≤ p.length + u.length) ∧
    (([] : List Char) = [] ∧ ('q' :: 'P' :: 'a' :: []) = ('q' :: 'P' :: 'a' :: [])) ∧
    _parseBase ('m' :: 'o' :: 'l' :: '*' :: 's' :: []) =
      .ok ['m', 'o', 'l'] ('*' :: 's' :: [])
        ⟨(ExpMap.empty.set .k10 (some 0)).set .kmol (some 1), 0⟩ := by
  refine ⟨claim_C5.2.2.2.1 _ _ _ _ rfl, claim_C5.2.2.2.2.2 _ _ _ rfl, claim_C5.2.2.2.2.1 _⟩

/-- C7 counterexample: `_parseMagnitude` on `"5*10^x"` fails having consumed
`"5*10^"`, but its failure `rest` is the whole input, so
`consumed ++ rest ≠ input`. -/
theorem claim_C7_counterexample :
    _parseMagnitude ('5' :: '*' :: '1' :: '0' :: '^' :: 'x' :: []) =
      .fail ['5', '*', '1', '0', '^'] ('5' :: '*' :: '1' :: '0' :: '^' :: 'x' :: []) ∧
    ['5', '*', '1', '0', '^'] ++ ('5' :: '*' :: '1' :: '0' :: '^' :: 'x' :: []) ≠
      ('5' :: '*' :: '1' :: '0' :: '^' :: 'x' :: []) := by
  exact ⟨rfl, by decide⟩

/-- C7 amended.  On failure every rule keeps `rest` equal to the whole input
and reports a `consumed` that is a prefix of the input — so
`consumed ++ rest = input` holds on failure only when nothing was consumed;
on success `consumed ++ rest = input` does hold. -/
theorem claim_C7_amended :
    (∀ s c r (v : ExprVal), _parseExpression s = .ok c r v → c ++ r = s) ∧
    (∀ s c r, _parseExpression s = .fail c r → r = s ∧ c <+: s) ∧
    (∀ s c r, _parseTerm s = .fail c r → r = s ∧ c <+: s) ∧
    (∀ s c r, _parseFactor s = .fail c r → r = s ∧ c <+: s) ∧
    (∀ s c r, _parseMagnitude s = .fail c r → r = s ∧ c <+: s) ∧
    (∀ s c r, _parseDecimal s = .fail c r → r = s ∧ c <+: s) ∧
    (∀ s c r, _parseInteger s = .fail c r → r = s ∧ c <+: s) ∧
    (∀ s c r, _parseDigits s = .fail c r → r = s ∧ c <+: s) ∧
    (∀ s ch c r, _parseChar s ch = .fail c r → r = s ∧ c <+: s) := by
  refine ⟨?_, ?_, ?_, ?_, ?_, ?_, ?_, ?_, ?_⟩
  · intro s c r v h
    have h0 := inv_parseExpression s; rw [h] at h0; exact h0
  · intro s c r h
    have h0 := inv_parseExpression s; rw [h] at h0; exact h0
  · intro s c r h
    have h0 := inv_parseTerm s; rw [h] at h0; exact h0
  · intro s c r h
    have h0 := inv_parseFactor s; rw [h] at h0; exact h0
  · intro s c r h
    have h0 := inv_parseMagnitude s; rw [h] at h0; exact h0
  · intro s c r h
    have h0 := inv_parseDecimal s; rw [h] at h0; exact h0
  · intro s c r h
    have h0 := inv_parseInteger s; rw [h] at h0; exact h0
  · intro s c r h
    have h0 := inv_parseDigits s; rw [h] at h0; exact h0
  · intro s ch c r h
    have h0 := inv_parseChar s ch; rw [h] at h0; exact h0

/-- Witness for the amended C7 at the `"5*10^x"` magnitude failure. -/
theorem claim_C7_amended_witness :
    ('5' :: '*' :: '1' :: '0' :: '^' :: 'x' :: []) =
      ('5' :: '*' :: '1' :: '0' :: '^' :: 'x' :: []) ∧
    ['5', '*', '1', '0', '^'] <+: ('5' :: '*' :: '1' :: '0' :: '^' :: 'x' :: []) :=
  claim_C7_amended.2.2.2.2.1 _ _ _ rfl

/-- C9. A failed rule never advances the cursor: for every grammar rule the
failure outcome's `rest` is the entire input unchanged. -/
theorem claim_C9 :
    (∀ s c r, _parseExpression s = .fail c r → r = s) ∧
    (∀ s c r, _parseTerm s = .fail c r → r = s) ∧
    (∀ s ch c r, _parseCharTerm s ch = .fail c r → r = s) ∧
    (∀ s c r, _parseAsterixTerm s = .fail c r → r = s) ∧
    (∀ s c r, _parseSlashTerm s = .fail c r → r = s) ∧
    (∀ s c r, _parseFactor s = .fail c r → r = s) ∧
    (∀ s c r (v : BaseVal), _parseBase s = .fail c r → r = s) ∧
    (∀ s c r, _parseMagnitude s = .fail c r → r = s) ∧
    (∀ s c r, _parseSignificand s = .fail c r → r = s) ∧
    (∀ s c r, _parseDecimal s = .fail c r → r = s) ∧
    (∀ s c r, _parseDotDigits s = .fail c r → r = s) ∧
    (∀ s c r, _parseExponent s = .fail c r → r = s) ∧
    (∀ s c r, _parseInteger s = .fail c r → r = s) ∧
    (∀ s c r, _parseDigits s = .fail c r → r = s) ∧
    (∀ s ch c r, _parseChar s ch = .fail c r → r = s) := by
  refine ⟨?_, ?_, ?_, ?_, ?_, ?_, ?_, ?_, ?_, ?_, ?_, ?_, ?_, ?_, ?_⟩ <;> intro s
  · intro c r h; have h0 := inv_parseExpression s; rw [h] at h0; exact h0.1
  · intro c r h; have h0 := inv_parseTerm s; rw [h] at h0; exact h0.1
  · intro ch c r h; have h0 := inv_parseCharTerm s ch; rw [h] at h0; exact h0.1
  · intro c r h; have h0 := inv_parseAsterixTerm s; rw [h] at h0; exact h0.1
  · intro c r h; have h0 := inv_parseSlashTerm s; rw [h] at h0; exact h0.1
  · intro c r h; have h0 := inv_parseFactor s; rw [h] at h0; exact h0.1
  · intro c r v h; exact (parseBase_fail_shape h).2
  · intro c r h; have h0 := inv_parseMagnitude s; rw [h] at h0; exact h0.1
  · intro c r h; have h0 := inv_parseSignificand s; rw [h] at h0; exact h0.1
  · intro c r h; have h0 := inv_parseDecimal s; rw [h] at h0; exact h0.1
  · intro c r h; have h0 := inv_parseDotDigits s; rw [h] at h0; exact h0.1
  · intro c r h; have h0 := inv_parseExponent s; rw [h] at h0; exact h0.1
  · intro c r h; have h0 := inv_parseInteger s; rw [h] at h0; exact h0.1
  · intro c r h; have h0 := inv_parseDigits s; rw [h] at h0; exact h0.1
  · intro ch c r h; have h0 := inv_parseChar s ch; rw [h] at h0; exact h0.1

/-- Witness for C9: the failed base parse of `"qPa"` keeps the whole input
as `rest`. -/
theorem claim_C9_witness : ('q' :: 'P' :: 'a' :: []) = ('q' :: 'P' :: 'a' :: []) :=
  claim_C9.2.2.2.2.2.2.1 ('q' :: 'P' :: 'a' :: []) [] ('q' :: 'P' :: 'a' :: [])
    ⟨ExpMap.empty, 0⟩ rfl

/-- The totalized expression rule agrees with the faithful partial one on
every nonempty input: the `TypeError` corner is exactly the empty string
(which `_normalizeUnits` never passes, short-circuiting it beforehand). -/
theorem parseExpressionT_agree (s : List Char) (hs : s ≠ []) :
    _parseExpressionT s = some (_parseExpression s) := by
  unfold _parseExpressionT _parseExpression
  split
  case _ mc mr mv hmag =>
    cases mr <;> rfl
  case _ mc mr hmag =>
    have hinv := inv_parseMagnitude s
    rw [hmag] at hinv
    have hmr : mr = s := hinv.1
    by_cases hmc : mc = []
    · rw [if_pos hmc, if_pos hmc]
      cases hmr
      cases s with
      | nil => exact absurd rfl hs
      | cons a t => rfl
    · rw [if_neg hmc, if_neg hmc]

/-- C4, counterexample to the never-throw conjunct: on the empty string
the expression rule dereferences the `result` field of the failed
magnitude outcome, which is absent — the source throws a `TypeError`
(modelled as `none`), while the totalized embedding had collapsed the
corner into a plain failure. -/
theorem claim_C4_counterexample :
    _parseExpressionT ("".data) = none ∧ _parseExpression ("".data) = .fail [] [] :=
  ⟨rfl, rfl⟩

/-- C4 (corrected). Whenever the canonicalizer fails, the public wrapper
raises (returns `Except.error`) a message that contains both the
consumed prefix and the original input string verbatim, and only this
wrapper converts failure into an error; the internal rules return plain
outcomes on every NONEMPTY input — the sole throwing corner is
`_parseExpression` on the empty string, which `_normalizeUnits` never
reaches because it short-circuits the empty stripped string. -/
theorem claim_C4_amended (s : String) (c r : List Char)
    (h : _normalizeUnitsL s.data = .fail c r) :
    normalizeUnits s = .error (String.mk (errMsg c s.data)) ∧
    c <:+: errMsg c s.data ∧ s.data <:+: errMsg c s.data ∧
    (∀ t : List Char, t ≠ [] → _parseExpressionT t = some (_parseExpression t)) := by
  refine ⟨?_, ?_, ?_, fun t ht => parseExpressionT_agree t ht⟩
  · unfold normalizeUnits
    rw [h]
  · exact ⟨('U' :: 'n' :: 'a' :: 'b' :: 'l' :: 'e' :: ' ' :: 't' :: 'o' :: ' ' :: 'p' :: 'a' :: 'r' :: 's' :: 'e' :: ' ' :: 'a' :: 'f' :: 't' :: 'e' :: 'r' :: ' ' :: '\'' :: []),
      ('\'' :: ' ' :: 'i' :: 'n' :: ' ' :: '\'' :: []) ++ s.data ++ ('\'' :: '.' :: ' ' :: 'A' :: 'r' :: 'e' :: ' ' :: 'y' :: 'o' :: 'u' :: ' ' :: 's' :: 'u' :: 'r' :: 'e' :: ' ' :: 'm' :: 'e' :: 't' :: 'r' :: 'i' :: 'c' :: ' ' :: 'u' :: 'n' :: 'i' :: 't' :: 's' :: ' ' :: 'a' :: 'r' :: 'e' :: ' ' :: 'b' :: 'e' :: 'i' :: 'n' :: 'g' :: ' ' :: 'u' :: 's' :: 'e' :: 'd' :: '?' :: []),
      by simp [errMsg, List.append_assoc]⟩
  · exact ⟨('U' :: 'n' :: 'a' :: 'b' :: 'l' :: 'e' :: ' ' :: 't' :: 'o' :: ' ' :: 'p' :: 'a' :: 'r' :: 's' :: 'e' :: ' ' :: 'a' :: 'f' :: 't' :: 'e' :: 'r' :: ' ' :: '\'' :: []) ++ c ++ ('\'' :: ' ' :: 'i' :: 'n' :: ' ' :: '\'' :: []),
      ('\'' :: '.' :: ' ' :: 'A' :: 'r' :: 'e' :: ' ' :: 'y' :: 'o' :: 'u' :: ' ' :: 's' :: 'u' :: 'r' :: 'e' :: ' ' :: 'm' :: 'e' :: 't' :: 'r' :: 'i' :: 'c' :: ' ' :: 'u' :: 'n' :: 'i' :: 't' :: 's' :: ' ' :: 'a' :: 'r' :: 'e' :: ' ' :: 'b' :: 'e' :: 'i' :: 'n' :: 'g' :: ' ' :: 'u' :: 's' :: 'e' :: 'd' :: '?' :: []),
      by simp [errMsg, List.append_assoc]⟩

/-- Witness for the amended C4: `"50 qPa"` raises, the message citing
consumed `"50"` and the original `"50 qPa"`, and the nonempty input
`"kPa"` does not throw. -/
theorem claim_C4_amended_witness :
    normalizeUnits "50 qPa" =
      .error "Unable to parse after '50' in '50 qPa'. Are you sure metric units are being used?" ∧
    ('5' :: '0' :: []) <:+: errMsg ('5' :: '0' :: []) ("50 qPa".data) ∧
    ("50 qPa".data) <:+: errMsg ('5' :: '0' :: []) ("50 qPa".data) ∧
    _parseExpressionT ('k' :: 'P' :: 'a' :: []) =
      some (_parseExpression ('k' :: 'P' :: 'a' :: [])) := by
  have h := claim_C4_amended "50 qPa" ('5' :: '0' :: []) "50 qPa".data rfl
  exact ⟨h.1, h.2.1, h.2.2.1, h.2.2.2 _ (by decide)⟩

/-- C8. When the magnitude rule fails consuming nothing but the whole input
still parses as a term (and the input does not begin with an operator),
the expression rule succeeds with magnitude NaN (`none`) — no implicit
significand of `1` — and the exponent vector is exactly the term's own,
with nothing added to its `10` entry. -/
theorem claim_C8 (s c r : List Char) (tv : BaseVal)
    (hm : _parseMagnitude s = .fail [] s)
    (hs : s.head? ≠ some '*' ∧ s.head? ≠ some '/')
    (ht : _parseTerm s = .ok c r tv) :
    _parseExpression s = .ok c r ⟨none, tv.exps⟩ := by
  unfold _parseExpression
  rw [hm]
  dsimp only
  rw [if_pos rfl]
  cases s with
  | nil =>
    rw [show _parseTerm ([] : List Char) = .fail [] [] from rfl] at ht
    cases ht
  | cons c0 t =>
    unfold exprTermPart
    simp only [List.head?_cons] at hs ⊢
    rw [if_neg hs.1, if_neg hs.2]
    rw [if_pos rfl]
    rw [ht]
    simp

/-- Witness for C8 at input `"kPa"`. -/
theorem claim_C8_witness :
    _parseExpression ('k' :: 'P' :: 'a' :: []) =
      .ok ['k', 'P', 'a'] []
        ⟨none, ⟨some 6, some 1, some (-1), some (-2), none, none, none, none,
                none, none, none, none, none⟩⟩ :=
  claim_C8 ('k' :: 'P' :: 'a' :: []) ['k', 'P', 'a'] []
    ⟨⟨some 6, some 1, some (-1), some (-2), none, none, none, none,
      none, none, none, none, none⟩, 0⟩ rfl (by decide) rfl

/-- C1. `normalizeUnits "50 kPa"` succeeds with the canonical string
`"50*10^6 g*m^-1*s^-2"`; the base `kPa` resolves to prefix `k` (3 on the
`10` key) merged with the `Pa` table entry `{10:3, g:1, m:-1, s:-2}`,
giving the `10`-exponent 6 that is folded into the magnitude. -/
theorem claim_C1 :
    normalizeUnits "50 kPa" = .ok "50*10^6 g*m^-1*s^-2" ∧
    _parseBase ('k' :: 'P' :: 'a' :: []) =
      .ok ['k', 'P', 'a'] []
        ⟨⟨some 6, some 1, some (-1), some (-2), none, none, none, none,
          none, none, none, none, none⟩, 0⟩ ∧
    preVal ['k'] = 3 ∧
    _normalizeUnitsL ("50 kPa".data) =
      .ok ['5', '0', 'k', 'P', 'a'] []
        ⟨['5', '0', '*', '1', '0', '^', '6'],
         ['g', '*', 'm', '^', '-', '1', '*', 's', '^', '-', '2']⟩ :=
  ⟨rfl, rfl, rfl, rfl⟩

/-- C10. A bare unit term such as `"kPa"` normalizes successfully: the NaN
magnitude serializes through `JSON.stringify` as the literal text `null`,
the magnitude string is `"null*10^6"`, and the public wrapper returns
`"null*10^6 g*m^-1*s^-2"`. -/
theorem claim_C10 :
    jsonNum none = ('n' :: 'u' :: 'l' :: 'l' :: []) ∧
    _parseExpression ('k' :: 'P' :: 'a' :: []) =
      .ok ['k', 'P', 'a'] []
        ⟨none, ⟨some 6, some 1, some (-1), some (-2), none, none, none, none,
                none, none, none, none, none⟩⟩ ∧
    _normalizeUnitsL ('k' :: 'P' :: 'a' :: []) =
      .ok ['k', 'P', 'a'] []
        ⟨['n', 'u', 'l', 'l', '*', '1', '0', '^', '6'],
         ['g', '*', 'm', '^', '-', '1', '*', 's', '^', '-', '2']⟩ ∧
    normalizeUnits "kPa" = .ok "null*10^6 g*m^-1*s^-2" :=
  ⟨rfl, rfl, rfl, rfl⟩

/-- C6 counterexample.  `"5*10^4 kg*m^-1*s^-2"` and `"50 kPa"` do NOT
normalize to equal magnitude and exponent vectors: the first yields
significand `5` with `10`-entry `7`, the second significand `50` with
`10`-entry `6` — componentwise different (and the canonical output strings
differ). -/
theorem claim_C6_counterexample :
    _parseExpression ("5*10^4kg*m^-1*s^-2".data) =
      .ok ("5*10^4kg*m^-1*s^-2".data) []
        ⟨some ⟨5, 0⟩, ⟨some 7, some 1, some (-1), some (-2), none, none, none, none,
                       none, none, none, none, none⟩⟩ ∧
    _parseExpression ("50kPa".data) =
      .ok ("50kPa".data) []
        ⟨some ⟨50, 0⟩, ⟨some 6, some 1, some (-1), some (-2), none, none, none, none,
                        none, none, none, none, none⟩⟩ ∧
    (some (⟨5, 0⟩ : Dec) : JSNum) ≠ (some ⟨50, 0⟩ : JSNum) ∧
    (some (7 : Int) : Option Int) ≠ some 6 ∧
    normalizeUnits "5*10^4 kg*m^-1*s^-2" = .ok "5*10^7 g*m^-1*s^-2" ∧
    normalizeUnits "50 kPa" = .ok "50*10^6 g*m^-1*s^-2" ∧
    ("5*10^7 g*m^-1*s^-2" : String) ≠ "50*10^6 g*m^-1*s^-2" :=
  ⟨rfl, rfl, by decide, by decide, rfl, rfl, by decide⟩

/-- C6 amended.  The two parses agree on every exponent except the `10`
entry, and they denote the same physical value: significand times ten to
the `10`-entry coincide (`5·10^7 = 50·10^6`); `kg` does decompose as
prefix exponent 3 on the `10` key plus `g^1`. -/
theorem claim_C6_amended :
    ({ (⟨some 7, some 1, some (-1), some (-2), none, none, none, none,
        none, none, none, none, none⟩ : ExpMap) with e10 := none } =
     { (⟨some 6, some 1, some (-1), some (-2), none, none, none, none,
        none, none, none, none, none⟩ : ExpMap) with e10 := none }) ∧
    Dec.val ⟨5, 0⟩ * (10 : ℚ) ^ (7 : ℤ) = Dec.val ⟨50, 0⟩ * (10 : ℚ) ^ (6 : ℤ) ∧
    _parseBase ('k' :: 'g' :: []) =
      .ok ['k', 'g'] []
        ⟨⟨some 3, some 1, none, none, none, none, none, none,
          none, none, none, none, none⟩, 0⟩ := by
  refine ⟨rfl, ?_, rfl⟩
  norm_num [Dec.val]

/-- C2 counterexample.  Normalizing `"1 m/m"`, whose `m` exponents cancel to
`0`, still renders the key `m` (as `m^0`): the output filter keeps every
*present* key, not every *nonzero* one. -/
theorem claim_C2_counterexample :
    _parseExpression ('1' :: 'm' :: '/' :: 'm' :: []) =
      .ok ['1', 'm', '/', 'm'] []
        ⟨some ⟨1, 0⟩, ⟨some 0, none, some 0, none, none, none, none, none,
                       none, none, none, none, none⟩⟩ ∧
    _normalizeUnitsL ("1 m/m".data) =
      .ok ['1', 'm', '/', 'm'] [] ⟨['1'], ['m', '^', '0']⟩ ∧
    normalizeUnits "1 m/m" = .ok "1 m^0" :=
  ⟨rfl, rfl, rfl⟩

/-- Reading a field just written, or another one. -/
theorem ExpMap.get_set (x : ExpMap) (k0 : Key) (w : Option Int) (k : Key) :
    (x.set k0 w).get k = if k = k0 then w else x.get k := by
  cases k0 <;> cases k <;> simp [ExpMap.set, ExpMap.get]

/-- Every key is listed in the canonical order. -/
theorem mem_canonicalKeys (k : Key) : k ∈ canonicalKeys := by
  cases k <;> simp [canonicalKeys]

/-- The unit substring renderer agrees with the pair-based token renderer. -/
theorem renderUnits_eq (x : ExpMap) :
    renderUnits x = renderTokensList (presentPairs x) := by
  unfold renderUnits renderTokensList presentPairs
  congr 1
  rw [List.map_map]
  apply List.map_congr_left
  intro k hk
  have hpres : (x.get k).isSome := (List.mem_filter.mp (List.mem_filter.mp hk).1).2
  obtain ⟨v, hv⟩ := Option.isSome_iff_exists.mp hpres
  by_cases h1 : v = 1 <;>
    simp [unitToken, tokenChars, hv, h1, Function.comp]

/-- C2 amended.  A successful normalization's units substring is the
`*`-join, in the fixed canonical key order, of one token per key that is
PRESENT in the parsed exponent map (presence, not nonzero value, is the
filter), rendered bare exactly when the exponent is `1` and as
`key^exponent` otherwise; the `10` key is never rendered. -/
theorem claim_C2_amended (s0 c r : List Char) (v : NormResult)
    (h : _normalizeUnitsL s0 = .ok c r v) :
    (v = ⟨[], []⟩) ∨
    ∃ ev : ExprVal,
      _parseExpression (s0.filter (fun ch => ch ≠ ' ')) = .ok c r ev ∧
      v.units = renderTokensList (presentPairs ev.exps) ∧
      (presentPairs ev.exps).map Prod.fst =
        (presentKeys ev.exps).filter (fun k => k ≠ Key.k10) ∧
      ((presentPairs ev.exps).map Prod.fst).Sublist canonicalKeys ∧
      Key.k10 ∉ (presentPairs ev.exps).map Prod.fst ∧
      (∀ k : Key, k ≠ Key.k10 →
        ((ev.exps.get k).isSome ↔ k ∈ (presentPairs ev.exps).map Prod.fst)) ∧
      (∀ kv ∈ presentPairs ev.exps, ev.exps.get kv.1 = some kv.2) := by
  unfold _normalizeUnitsL at h
  dsimp only at h
  split at h
  case _ hempty =>
    cases h
    exact .inl rfl
  case _ hempty =>
    split at h
    case _ c' r' ev hexp =>
      cases h
      refine .inr ⟨ev, hexp, renderUnits_eq ev.exps, ?_, ?_, ?_, ?_, ?_⟩
      · unfold presentPairs
        rw [List.map_map]
        rw [show (Prod.fst ∘ fun k => (k, (ev.exps.get k).getD 0)) = (id : Key → Key) from rfl,
          List.map_id]
      · unfold presentPairs
        rw [List.map_map]
        rw [show (Prod.fst ∘ fun k => (k, (ev.exps.get k).getD 0)) = (id : Key → Key) from rfl,
          List.map_id]
        exact ((List.filter_sublist _).trans (List.filter_sublist _)).trans
          (List.Sublist.refl _)
      · unfold presentPairs
        rw [List.map_map]
        intro hmem
        have : Key.k10 ∈ (presentKeys ev.exps).filter (fun k => k ≠ Key.k10) := by
          simpa [Function.comp] using hmem
        have := (List.mem_filter.mp this).2
        simp at this
      · intro k hk
        unfold presentPairs
        rw [List.map_map]
        rw [show (Prod.fst ∘ fun q => (q, (ev.exps.get q).getD 0)) = (id : Key → Key) from rfl,
          List.map_id]
        constructor
        · intro hsome
          refine List.mem_filter.mpr ⟨?_, by simpa using hk⟩
          exact List.mem_filter.mpr ⟨mem_canonicalKeys k, by simpa using hsome⟩
        · intro hmem
          exact (List.mem_filter.mp (List.mem_filter.mp hmem).1).2
      · intro kv hkv
        unfold presentPairs at hkv
        obtain ⟨k, hk, rfl⟩ := List.mem_map.mp hkv
        have hpres : (ev.exps.get k).isSome :=
          (List.mem_filter.mp (List.mem_filter.mp hk).1).2
        obtain ⟨w, hw⟩ := Option.isSome_iff_exists.mp hpres
        simp [hw]
    case _ hexp => cases h

/-- Witness for the amended C2 at `"1 m/m"`: the zero exponent on `m` is
present and rendered as `m^0`. -/
theorem claim_C2_amended_witness :
    ((⟨['1'], ['m', '^', '0']⟩ : NormResult) = ⟨[], []⟩) ∨
    ∃ ev : ExprVal,
      _parseExpression (("1 m/m".data).filter (fun ch => ch ≠ ' ')) =
        .ok ['1', 'm', '/', 'm'] [] ev ∧
      (⟨['1'], ['m', '^', '0']⟩ : NormResult).units =
        renderTokensList (presentPairs ev.exps) ∧
      (presentPairs ev.exps).map Prod.fst =
        (presentKeys ev.exps).filter (fun k => k ≠ Key.k10) ∧
      ((presentPairs ev.exps).map Prod.fst).Sublist canonicalKeys ∧
      Key.k10 ∉ (presentPairs ev.exps).map Prod.fst ∧
      (∀ k : Key, k ≠ Key.k10 →
        ((ev.exps.get k).isSome ↔ k ∈ (presentPairs ev.exps).map Prod.fst)) ∧
      (∀ kv ∈ presentPairs ev.exps, ev.exps.get kv.1 = some kv.2) :=
  claim_C2_amended ("1 m/m".data) ['1', 'm', '/', 'm'] [] ⟨['1'], ['m', '^', '0']⟩ rfl

/-!  ## Digit rendering and re-parsing -/

theorem digitChar_isDigit {r : Nat} (h : r < 10) :
    isDigitChar (Char.ofNat (48 + r)) = true := by
  interval_cases r <;> decide

theorem digitChar_val {r : Nat} (h : r < 10) :
    digitVal (Char.ofNat (48 + r)) = r := by
  interval_cases r <;> decide

theorem natDigits_lt10 {n : Nat} (h : n < 10) :
    natDigits n = [Char.ofNat (48 + n)] := by
  unfold natDigits natDigitsAux
  rw [if_pos h]
  simp [Nat.mod_eq_of_lt h]

theorem natDigitsAux_spec :
    ∀ (n : Nat), ∀ (fuel : Nat) (acc : List Char), n < fuel →
      natDigitsAux fuel n acc = natDigits n ++ acc := by
  intro n
  induction n using Nat.strong_induction_on with
  | _ n ih =>
    intro fuel acc hf
    match fuel, hf with
    | fuel + 1, _ =>
      by_cases h10 : n < 10
      · unfold natDigitsAux
        rw [if_pos h10]
        rw [natDigits_lt10 h10]
        simp [Nat.mod_eq_of_lt h10]
      · have hlt : n / 10 < n := Nat.div_lt_self (by omega) (by omega)
        have h2 : natDigits n = natDigits (n / 10) ++ [Char.ofNat (48 + n % 10)] := by
          unfold natDigits
          conv_lhs => unfold natDigitsAux
          rw [if_neg h10]
          exact ih (n / 10) hlt n _ (by omega)
        unfold natDigitsAux
        rw [if_neg h10]
        rw [ih (n / 10) hlt fuel _ (by omega), h2, List.append_assoc]
        rfl

/-- The digit recurrence for `n ≥ 10`. -/
theorem natDigits_ge10 {n : Nat} (h : ¬ n < 10) :
    natDigits n = natDigits (n / 10) ++ [Char.ofNat (48 + n % 10)] := by
  unfold natDigits
  conv_lhs => unfold natDigitsAux
  rw [if_neg h]
  exact natDigitsAux_spec (n / 10) n _ (by
    have := Nat.div_lt_self (show 0 < n by omega) (show 1 < 10 by omega)
    omega)

theorem natDigits_all_digits (n : Nat) : ∀ c ∈ natDigits n, isDigitChar c = true := by
  induction n using Nat.strong_induction_on with
  | _ n ih =>
    by_cases h10 : n < 10
    · rw [natDigits_lt10 h10]
      intro c hc
      rcases List.mem_singleton.mp hc with rfl
      exact digitChar_isDigit h10
    · rw [natDigits_ge10 h10]
      intro c hc
      rcases List.mem_append.mp hc with h1 | h2
      · exact ih (n / 10) (Nat.div_lt_self (by omega) (by omega)) c h1
      · rcases List.mem_singleton.mp h2 with rfl
        exact digitChar_isDigit (Nat.mod_lt _ (by omega))

theorem natDigits_ne_nil (n : Nat) : natDigits n ≠ [] := by
  by_cases h10 : n < 10
  · rw [natDigits_lt10 h10]; simp
  · rw [natDigits_ge10 h10]; simp

theorem digitsVal_foldl_init (l : List Char) :
    ∀ a : Nat, l.foldl (fun a c => a * 10 + digitVal c) a =
      a * 10 ^ l.length + digitsVal l := by
  induction l with
  | nil => intro a; simp [digitsVal]
  | cons c t ih =>
    intro a
    have h1 : digitsVal (c :: t) = digitVal c * 10 ^ t.length + digitsVal t := by
      unfold digitsVal
      rw [List.foldl_cons, ih (0 * 10 + digitVal c)]
      simp [digitsVal]
    rw [List.foldl_cons, ih (a * 10 + digitVal c), h1]
    simp [List.length_cons]
    ring

theorem digitsVal_append (l1 l2 : List Char) :
    digitsVal (l1 ++ l2) = digitsVal l1 * 10 ^ l2.length + digitsVal l2 := by
  unfold digitsVal
  rw [List.foldl_append]
  exact digitsVal_foldl_init l2 _

theorem digitsVal_natDigits (n : Nat) : digitsVal (natDigits n) = n := by
  induction n using Nat.strong_induction_on with
  | _ n ih =>
    by_cases h10 : n < 10
    · rw [natDigits_lt10 h10]
      unfold digitsVal
      simp [digitChar_val h10]
    · rw [natDigits_ge10 h10]
      rw [digitsVal_append]
      have h1 : digitsVal [Char.ofNat (48 + n % 10)] = n % 10 := by
        unfold digitsVal
        simp [digitChar_val (Nat.mod_lt n (show 0 < 10 by omega))]
      rw [h1, ih (n / 10) (Nat.div_lt_self (by omega) (by omega))]
      simp
      omega

theorem fracDigits_length (e n : Nat) : (fracDigits e n).length = e := by
  induction e generalizing n with
  | zero => rfl
  | succ e ih => simp [fracDigits, ih]

theorem fracDigits_all_digits (e n : Nat) :
    ∀ c ∈ fracDigits e n, isDigitChar c = true := by
  induction e generalizing n with
  | zero => intro c hc; cases hc
  | succ e ih =>
    intro c hc
    rcases List.mem_append.mp hc with h1 | h2
    · exact ih _ c h1
    · rcases List.mem_singleton.mp h2 with rfl
      exact digitChar_isDigit (Nat.mod_lt _ (by omega))

theorem digitsVal_fracDigits (e n : Nat) :
    digitsVal (fracDigits e n) = n % 10 ^ e := by
  induction e generalizing n with
  | zero => simp [fracDigits, digitsVal, Nat.mod_one]
  | succ e ih =>
    show digitsVal (fracDigits e (n / 10) ++ [Char.ofNat (48 + n % 10)]) = _
    rw [digitsVal_append, ih]
    have h1 : digitsVal [Char.ofNat (48 + n % 10)] = n % 10 := by
      unfold digitsVal
      simp [digitChar_val (Nat.mod_lt n (show 0 < 10 by omega))]
    rw [h1]
    simp
    rw [Nat.pow_succ, Nat.mul_comm (10 ^ e) 10, Nat.mod_mul]
    ring

/-- Splitting `takeWhile`/`dropWhile` at a rendered token boundary. -/
theorem takeWhile_append_split {p : Char → Bool} {l t : List Char}
    (hl : ∀ c ∈ l, p c = true) (ht : ∀ c, t.head? = some c → p c = false) :
    (l ++ t).takeWhile p = l ∧ (l ++ t).dropWhile p = t := by
  induction l with
  | nil =>
    cases t with
    | nil => exact ⟨rfl, rfl⟩
    | cons c t' =>
      have := ht c rfl
      simp [List.takeWhile_cons, List.dropWhile_cons, this]
  | cons a l' ih =>
    have ha : p a = true := hl a (List.mem_cons_self _ _)
    have ih2 := ih (fun c hc => hl c (List.mem_cons_of_mem _ hc))
    simp [List.takeWhile_cons, List.dropWhile_cons, ha, ih2.1, ih2.2]

/-- Digits re-parse: a rendered digit run followed by a non-digit boundary
is consumed exactly and evaluates back. -/
theorem parseDigits_round (n : Nat) (t : List Char)
    (ht : ∀ c, t.head? = some c → isDigitChar c = false) :
    _parseDigits (natDigits n ++ t) = .ok (natDigits n) t n := by
  unfold _parseDigits
  obtain ⟨h1, h2⟩ := takeWhile_append_split (natDigits_all_digits n) ht
  rw [h1, h2]
  rw [if_neg (natDigits_ne_nil n)]
  rw [digitsVal_natDigits]

/-- A single-character match fails when the head differs. -/
theorem parseChar_fail_of_head {s : List Char} {x : Char}
    (hx : s.head? = some x) {ch : Char} (hne : ch ≠ x) :
    _parseChar s ch = .fail [] s := by
  cases s with
  | nil => cases hx
  | cons a t =>
    simp only [List.head?_cons, Option.some.injEq] at hx
    subst hx
    show (if ch = a then PR.ok [ch] t () else PR.fail [] (a :: t)) = PR.fail [] (a :: t)
    rw [if_neg hne]

/-- A digit character is none of the grammar's operator characters. -/
theorem digit_ne_special {x : Char} (h : isDigitChar x = true) :
    x ≠ '+' ∧ x ≠ '-' ∧ x ≠ '.' ∧ x ≠ '(' ∧ x ≠ '*' ∧ x ≠ '/' ∧
    x ≠ '^' ∧ x ≠ 'E' ∧ x ≠ 'e' := by
  refine ⟨?_, ?_, ?_, ?_, ?_, ?_, ?_, ?_, ?_⟩ <;>
    (rintro rfl; simp [isDigitChar] at h) <;> omega

/-- The head of a rendered digit run is a digit. -/
theorem natDigits_head (n : Nat) :
    ∃ x t0, natDigits n = x :: t0 ∧ isDigitChar x = true := by
  cases hd : natDigits n with
  | nil => exact absurd hd (natDigits_ne_nil n)
  | cons x t0 =>
    exact ⟨x, t0, rfl, natDigits_all_digits n x (by rw [hd]; exact List.mem_cons_self _ _)⟩

/-- Integer re-parse for a non-negative value. -/
theorem parseIntegerF_round_nonneg (n : Nat) (t : List Char) (fuel : Nat)
    (ht : ∀ c, t.head? = some c → isDigitChar c = false) :
    _parseIntegerF (fuel + 1) (natDigits n ++ t) = .ok (natDigits n) t (n : Int) := by
  obtain ⟨x, t0, hx, hdig⟩ := natDigits_head n
  have hhead : (natDigits n ++ t).head? = some x := by rw [hx]; rfl
  have hspec := digit_ne_special hdig
  unfold _parseIntegerF
  rw [parseChar_fail_of_head hhead (Ne.symm hspec.1)]
  rw [parseChar_fail_of_head hhead (Ne.symm hspec.2.1)]
  rw [parseDigits_round n t ht]

/-- Integer re-parse for any value, fuel at least 2. -/
theorem parseIntegerF_round (i : Int) (t : List Char) (fuel : Nat)
    (ht : ∀ c, t.head? = some c → isDigitChar c = false) :
    _parseIntegerF (fuel + 2) (intChars i ++ t) = .ok (intChars i) t i := by
  by_cases hneg : i < 0
  · unfold intChars
    rw [if_pos hneg]
    unfold _parseIntegerF
    rw [show ((('-' :: natDigits i.natAbs) ++ t) : List Char) =
      '-' :: (natDigits i.natAbs ++ t) from rfl]
    rw [parseChar_fail_of_head (s := '-' :: (natDigits i.natAbs ++ t)) (x := '-')
      rfl (by decide)]
    dsimp only
    rw [show _parseChar ('-' :: (natDigits i.natAbs ++ t)) '-' =
      .ok ['-'] (natDigits i.natAbs ++ t) () from rfl]
    dsimp only
    rw [parseIntegerF_round_nonneg i.natAbs t fuel ht]
    dsimp only
    have h1 : -((i.natAbs : Nat) : Int) = i := by omega
    rw [h1]
    rfl
  · unfold intChars
    rw [if_neg hneg]
    have h0 : (fuel + 2) = (fuel + 1) + 1 := rfl
    rw [h0, parseIntegerF_round_nonneg i.natAbs t (fuel + 1) ht]
    have h1 : ((i.natAbs : Nat) : Int) = i := by omega
    rw [h1]

/-- `_parseExponent` on a rendered integer: the wrapper supplies enough
fuel by itself. -/
theorem parseExponent_round (i : Int) (t : List Char)
    (ht : ∀ c, t.head? = some c → isDigitChar c = false) :
    _parseExponent (intChars i ++ t) = .ok (intChars i) t i := by
  unfold _parseExponent _parseInteger
  have hlen : (intChars i ++ t).length + 1 =
      ((intChars i ++ t).length - 1) + 2 := by
    have : intChars i ≠ [] := by
      unfold intChars
      split
      · simp
      · exact natDigits_ne_nil _
    have : 1 ≤ (intChars i).length := by
      cases hc : intChars i with
      | nil => exact absurd hc this
      | cons a b => simp
    simp only [List.length_append]
    omega
  rw [hlen]
  exact parseIntegerF_round i t _ ht

/-- Generic digit-run re-parse. -/
theorem parseDigits_run (l t : List Char)
    (hl : ∀ c ∈ l, isDigitChar c = true) (hne : l ≠ [])
    (ht : ∀ c, t.head? = some c → isDigitChar c = false) :
    _parseDigits (l ++ t) = .ok l t (digitsVal l) := by
  unfold _parseDigits
  obtain ⟨h1, h2⟩ := takeWhile_append_split hl ht
  rw [h1, h2, if_neg hne]

/-- Dot-digits fails on a boundary that does not start with a period. -/
theorem parseDotDigits_boundary (t : List Char)
    (ht : ∀ c, t.head? = some c → c ≠ '.') :
    _parseDotDigits t = .fail [] t := by
  unfold _parseDotDigits
  cases t with
  | nil => rfl
  | cons c t' =>
    rw [parseChar_fail_of_head (s := c :: t') (x := c) rfl (fun h => ht c rfl h.symm)]

/-- Normalization is the identity on canonical data. -/
theorem norm_of_canonical (m : Int) (e : Nat) (h : e ≠ 0 → m % 10 ≠ 0) :
    Dec.norm m e = ⟨m, e⟩ := by
  cases e with
  | zero => rfl
  | succ e' =>
    unfold Dec.norm
    rw [if_neg (h (Nat.succ_ne_zero e'))]

/-- Negative rendering peels its sign. -/
theorem decChars_neg {d : Dec} (h : d.m < 0) :
    decChars d = '-' :: decChars ⟨-d.m, d.e⟩ := by
  unfold decChars
  simp only [Int.natAbs_neg]
  rw [if_pos h, if_neg (show ¬(-d.m < 0) by omega)]

/-- Non-negative integer rendering. -/
theorem decChars_nonneg_zero {d : Dec} (hm : ¬ d.m < 0) (he : d.e = 0) :
    decChars d = natDigits d.m.natAbs := by
  unfold decChars
  rw [if_neg hm, if_pos he]

/-- Non-negative fractional rendering. -/
theorem decChars_nonneg_pos {d : Dec} (hm : ¬ d.m < 0) (he : d.e ≠ 0) :
    decChars d = natDigits (d.m.natAbs / 10 ^ d.e) ++ '.' :: fracDigits d.e d.m.natAbs := by
  unfold decChars
  rw [if_neg hm, if_neg he]

/-- Decimal re-parse, non-negative canonical value. -/
theorem parseDecimalF_round_nonneg (d : Dec) (hcan : d.Canonical) (hm : 0 ≤ d.m)
    (t : List Char) (fuel : Nat)
    (ht : ∀ c, t.head? = some c → isDigitChar c = false ∧ c ≠ '.') :
    _parseDecimalF (fuel + 1) (decChars d ++ t) = .ok (decChars d) t (some d) := by
  have hm' : ¬ d.m < 0 := by omega
  by_cases he : d.e = 0
  · rw [decChars_nonneg_zero hm' he]
    obtain ⟨x, t0, hx, hdig⟩ := natDigits_head d.m.natAbs
    have hhead : (natDigits d.m.natAbs ++ t).head? = some x := by rw [hx]; rfl
    have hspec := digit_ne_special hdig
    unfold _parseDecimalF
    rw [parseChar_fail_of_head hhead (Ne.symm hspec.1)]
    dsimp only
    rw [parseChar_fail_of_head hhead (Ne.symm hspec.2.1)]
    dsimp only
    rw [parseDigits_round d.m.natAbs t (fun c hc => (ht c hc).1)]
    dsimp only [PR.rest, PR.consumed]
    rw [parseDotDigits_boundary t (fun c hc => (ht c hc).2)]
    dsimp only
    have h1 : ((d.m.natAbs : Nat) : Int) = d.m := by omega
    rw [show Dec.ofInt ((d.m.natAbs : Nat) : Int) = d by
      unfold Dec.ofInt; rw [h1]; cases d; simp_all]
  · rw [decChars_nonneg_pos hm' he]
    have hfrac_len : (fracDigits d.e d.m.natAbs).length = d.e := fracDigits_length _ _
    have hfrac_ne : fracDigits d.e d.m.natAbs ≠ [] := by
      intro h0
      rw [h0] at hfrac_len
      exact he (by simpa using hfrac_len.symm)
    have hfrac_dig := fracDigits_all_digits d.e d.m.natAbs
    have hshape : (natDigits (d.m.natAbs / 10 ^ d.e) ++ '.' :: fracDigits d.e d.m.natAbs) ++ t =
        natDigits (d.m.natAbs / 10 ^ d.e) ++ ('.' :: (fracDigits d.e d.m.natAbs ++ t)) := by
      simp
    rw [hshape]
    obtain ⟨x, t0, hx, hdig⟩ := natDigits_head (d.m.natAbs / 10 ^ d.e)
    have hhead : (natDigits (d.m.natAbs / 10 ^ d.e) ++
        ('.' :: (fracDigits d.e d.m.natAbs ++ t))).head? = some x := by rw [hx]; rfl
    have hspec := digit_ne_special hdig
    unfold _parseDecimalF
    rw [parseChar_fail_of_head hhead (Ne.symm hspec.1)]
    dsimp only
    rw [parseChar_fail_of_head hhead (Ne.symm hspec.2.1)]
    dsimp only
    rw [parseDigits_round (d.m.natAbs / 10 ^ d.e) ('.' :: (fracDigits d.e d.m.natAbs ++ t))
      (fun c hc => by cases hc; decide)]
    dsimp only [PR.rest, PR.consumed]
    have hdd : _parseDotDigits ('.' :: (fracDigits d.e d.m.natAbs ++ t)) =
        .ok ('.' :: fracDigits d.e d.m.natAbs) t
          (jsParseFloat ('.' :: fracDigits d.e d.m.natAbs)) := by
      unfold _parseDotDigits
      rw [show _parseChar ('.' :: (fracDigits d.e d.m.natAbs ++ t)) '.' =
        .ok ['.'] (fracDigits d.e d.m.natAbs ++ t) () from rfl]
      dsimp only
      rw [parseDigits_run (fracDigits d.e d.m.natAbs) t hfrac_dig hfrac_ne
        (fun c hc => (ht c hc).1)]
      dsimp only [PR.consumed]
      have hdrop : ('.' :: (fracDigits d.e d.m.natAbs ++ t)).drop
          (['.'] ++ fracDigits d.e d.m.natAbs).length = t := by
        show (('.' :: fracDigits d.e d.m.natAbs) ++ t).drop
          ('.' :: fracDigits d.e d.m.natAbs).length = t
        exact List.drop_left _ _
      rw [hdrop]
      rfl
    rw [hdd]
    dsimp only
    have hjson : jsParseFloat (natDigits (d.m.natAbs / 10 ^ d.e) ++
        '.' :: fracDigits d.e d.m.natAbs) = some d := by
      unfold jsParseFloat
      obtain ⟨hk1, hk2⟩ := takeWhile_append_split (p := isDigitChar)
        (natDigits_all_digits (d.m.natAbs / 10 ^ d.e))
        (t := '.' :: fracDigits d.e d.m.natAbs) (fun c hc => by cases hc; decide)
      rw [hk1, hk2]
      dsimp only
      split
      case _ fp hfp =>
        obtain rfl : fracDigits d.e d.m.natAbs = fp := by
          injection hfp
        split
        case _ hcond =>
          exfalso
          simp only [Bool.and_eq_true, decide_eq_true_eq] at hcond
          exact hfrac_ne hcond.2
        case _ hcond =>
          rw [digitsVal_natDigits, digitsVal_fracDigits, hfrac_len]
          have harith : ((d.m.natAbs / 10 ^ d.e : Nat) : Int) * (10 : Int) ^ d.e +
              ((d.m.natAbs % 10 ^ d.e : Nat) : Int) = ((d.m.natAbs : Nat) : Int) := by
            have h0 : d.m.natAbs / 10 ^ d.e * 10 ^ d.e + d.m.natAbs % 10 ^ d.e = d.m.natAbs :=
              Nat.div_add_mod' _ _
            exact_mod_cast congrArg (fun n : Nat => (n : Int)) h0
          rw [harith]
          have hmna : ((d.m.natAbs : Nat) : Int) = d.m := by omega
          rw [hmna]
          rw [norm_of_canonical d.m d.e hcan]
      case _ hq =>
        exact absurd rfl (hq (fracDigits d.e d.m.natAbs))
    rw [hjson]

theorem canonical_neg_flip {d : Dec} (h : d.Canonical) :
    Dec.Canonical ⟨-d.m, d.e⟩ := by
  intro he hmod
  apply h he
  have h1 : (10 : Int) ∣ -d.m := Int.dvd_of_emod_eq_zero hmod
  have h2 : (10 : Int) ∣ d.m := (dvd_neg).mp h1
  exact Int.emod_eq_zero_of_dvd h2

theorem decChars_ne_nil (d : Dec) : decChars d ≠ [] := by
  unfold decChars
  split
  · simp
  · split
    · exact natDigits_ne_nil _
    · simp [natDigits_ne_nil]

/-- Decimal re-parse, any canonical value, fuel at least 2. -/
theorem parseDecimalF_round (d : Dec) (hcan : d.Canonical) (t : List Char) (fuel : Nat)
    (ht : ∀ c, t.head? = some c → isDigitChar c = false ∧ c ≠ '.') :
    _parseDecimalF (fuel + 2) (decChars d ++ t) = .ok (decChars d) t (some d) := by
  by_cases hneg : d.m < 0
  · rw [decChars_neg hneg]
    rw [show (('-' :: decChars ⟨-d.m, d.e⟩) ++ t) = '-' :: (decChars ⟨-d.m, d.e⟩ ++ t) from rfl]
    show _parseDecimalF (fuel + 1 + 1) _ = _
    unfold _parseDecimalF
    rw [parseChar_fail_of_head (s := '-' :: (decChars ⟨-d.m, d.e⟩ ++ t)) (x := '-')
      rfl (by decide)]
    dsimp only
    rw [show _parseChar ('-' :: (decChars ⟨-d.m, d.e⟩ ++ t)) '-' =
      .ok ['-'] (decChars ⟨-d.m, d.e⟩ ++ t) () from rfl]
    dsimp only
    rw [parseDecimalF_round_nonneg ⟨-d.m, d.e⟩ (canonical_neg_flip hcan)
      (by show (0 : Int) ≤ -d.m; omega) t fuel ht]
    dsimp only
    have h1 : (some (Dec.neg ⟨-d.m, d.e⟩) : JSNum) = some d := by
      unfold Dec.neg
      cases d
      simp
    rw [show (Option.map Dec.neg (some ⟨-d.m, d.e⟩) : JSNum) = some (Dec.neg ⟨-d.m, d.e⟩)
      from rfl, h1]
    rfl
  · exact parseDecimalF_round_nonneg d hcan (by omega) t (fuel + 1) ht

/-- `_parseSignificand` (the fuel-supplying wrapper) on a rendered decimal. -/
theorem parseSignificand_round (d : Dec) (hcan : d.Canonical) (t : List Char)
    (ht : ∀ c, t.head? = some c → isDigitChar c = false ∧ c ≠ '.') :
    _parseSignificand (decChars d ++ t) = .ok (decChars d) t (some d) := by
  unfold _parseSignificand _parseDecimal
  have hlen : (decChars d ++ t).length + 1 = ((decChars d ++ t).length - 1) + 2 := by
    have h1 : 1 ≤ (decChars d).length := by
      cases hc : decChars d with
      | nil => exact absurd hc (decChars_ne_nil d)
      | cons a b => simp
    simp only [List.length_append]
    omega
  rw [hlen]
  exact parseDecimalF_round d hcan t _ ht

/-- The `*10^` operator test fails on a boundary whose head is not `*`. -/
theorem isPre_false_of_head {a : Char} {l t : List Char}
    (ht : ∀ c, t.head? = some c → c ≠ a) : isPre (a :: l) t = false := by
  cases t with
  | nil => rfl
  | cons c t' =>
    have : a ≠ c := fun h => ht c rfl (h.symm)
    simp [isPre, this]

/-- Magnitude re-parse with no power-of-ten suffix. -/
theorem parseMagnitude_round_zero (d : Dec) (hcan : d.Canonical) (t : List Char)
    (ht : ∀ c, t.head? = some c →
      isDigitChar c = false ∧ c ≠ '.' ∧ c ≠ '*' ∧ c ≠ 'E' ∧ c ≠ 'e') :
    _parseMagnitude (decChars d ++ t) = .ok (decChars d) t ⟨some d, 0⟩ := by
  unfold _parseMagnitude
  rw [parseSignificand_round d hcan t (fun c hc => ⟨(ht c hc).1, (ht c hc).2.1⟩)]
  dsimp only
  rw [isPre_false_of_head (fun c hc => (ht c hc).2.2.1)]
  rw [if_neg (show ¬ (false = true) by simp)]
  rw [if_neg (show ¬ t.head? = some 'E' from fun h => (ht 'E' h).2.2.2.1 rfl)]
  rw [if_neg (show ¬ t.head? = some 'e' from fun h => (ht 'e' h).2.2.2.2 rfl)]

/-- Magnitude re-parse with an explicit `*10^` suffix. -/
theorem parseMagnitude_round_pos (d : Dec) (hcan : d.Canonical) (e10 : Int) (t : List Char)
    (ht : ∀ c, t.head? = some c → isDigitChar c = false) :
    _parseMagnitude (decChars d ++ ('*' :: '1' :: '0' :: '^' :: (intChars e10 ++ t))) =
      .ok (decChars d ++ ('*' :: '1' :: '0' :: '^' :: intChars e10)) t ⟨some d, e10⟩ := by
  unfold _parseMagnitude
  rw [parseSignificand_round d hcan ('*' :: '1' :: '0' :: '^' :: (intChars e10 ++ t))
    (fun c hc => by cases hc; exact ⟨by decide, by decide⟩)]
  dsimp only
  rw [show isPre ['*', '1', '0', '^'] ('*' :: '1' :: '0' :: '^' :: (intChars e10 ++ t)) = true
    from rfl]
  rw [if_pos rfl]
  dsimp only
  rw [show (('*' :: '1' :: '0' :: '^' :: (intChars e10 ++ t)).drop
    (['*', '1', '0', '^'] : List Char).length) = intChars e10 ++ t from rfl]
  rw [parseExponent_round e10 t ht]
  dsimp only
  have hc1 : decChars d ++ ['*', '1', '0', '^'] ++ intChars e10 =
      decChars d ++ ('*' :: '1' :: '0' :: '^' :: intChars e10) := by simp
  have hdrop : (decChars d ++ ('*' :: '1' :: '0' :: '^' :: (intChars e10 ++ t))).drop
      (decChars d ++ ['*', '1', '0', '^'] ++ intChars e10).length = t := by
    rw [hc1]
    have hsh : decChars d ++ ('*' :: '1' :: '0' :: '^' :: (intChars e10 ++ t)) =
        (decChars d ++ ('*' :: '1' :: '0' :: '^' :: intChars e10)) ++ t := by simp
    rw [hsh]
    exact List.drop_left _ _
  rw [hdrop, hc1]

theorem intercalate_single (sep a : List Char) :
    List.intercalate sep [a] = a := by
  simp [List.intercalate, List.intersperse]

theorem intercalate_cons₂ (sep a b : List Char) (l : List (List Char)) :
    List.intercalate sep (a :: b :: l) = a ++ sep ++ List.intercalate sep (b :: l) := by
  simp [List.intercalate, List.intersperse, List.append_assoc]

/-- Every non-`10` key's spelling starts with a character that is not a
digit and not one of the grammar's operator characters. -/
theorem keyStr_shape (k : Key) (hk : k ≠ Key.k10) :
    ∃ x t0, keyStr k = x :: t0 ∧
      (isDigitChar x = false ∧ x ≠ '(' ∧ x ≠ '*' ∧ x ≠ '/' ∧ x ≠ '^' ∧
       x ≠ '.' ∧ x ≠ 'E' ∧ x ≠ 'e' ∧ x ≠ ' ' ∧ x ≠ '+' ∧ x ≠ '-') := by
  cases k
  case k10 => exact absurd rfl hk
  all_goals exact ⟨_, _, rfl, by decide⟩

/-- Base re-parse of a bare unit key at a `*`, `^` or end boundary. -/
theorem keyBase_round (k : Key) (hk : k ≠ Key.k10) (t : List Char)
    (hht : t = [] ∨ (∃ t', t = '*' :: t') ∨ (∃ t', t = '^' :: t')) :
    _parseBase (keyStr k ++ t) = .ok (keyStr k) t ⟨factorMap k 1, 0⟩ := by
  cases k
  case k10 => exact absurd rfl hk
  all_goals rcases hht with rfl | ⟨t', rfl⟩ | ⟨t', rfl⟩ <;> rfl

theorem tokenChars_one (k : Key) : tokenChars k 1 = keyStr k := by
  simp [tokenChars]

theorem tokenChars_ne (k : Key) (v : Int) (hv : v ≠ 1) :
    tokenChars k v = keyStr k ++ '^' :: intChars v := by
  simp [tokenChars, hv]

theorem factorMap_mulAll (k : Key) (v : Int) :
    (factorMap k 1).mulAll v = factorMap k v := by
  cases k <;>
    simp [factorMap, ExpMap.mulAll, ExpMap.mapAll, ExpMap.set, ExpMap.empty]

/-- Factor re-parse of one rendered token at a `*` or end boundary. -/
theorem parseFactor_round (k : Key) (hk : k ≠ Key.k10) (v : Int) (t : List Char)
    (hht : t = [] ∨ ∃ t', t = '*' :: t') :
    _parseFactor (tokenChars k v ++ t) = .ok (tokenChars k v) t ⟨factorMap k v, 0⟩ := by
  by_cases hv : v = 1
  · subst hv
    rw [tokenChars_one]
    unfold _parseFactor
    rw [keyBase_round k hk t (by rcases hht with rfl | ⟨t', rfl⟩ <;> simp)]
    dsimp only
    have hcaret : _parseChar t '^' = .fail [] t ∨ _parseChar t '^' = .fail [] [] := by
      rcases hht with rfl | ⟨t', rfl⟩
      · exact .inr rfl
      · exact .inl (parseChar_fail_of_head (s := '*' :: t') (x := '*') rfl (by decide))
    rcases hcaret with h | h <;> rw [h]
  · rw [tokenChars_ne k v hv]
    have hshape : (keyStr k ++ '^' :: intChars v) ++ t =
        keyStr k ++ ('^' :: (intChars v ++ t)) := by simp
    rw [hshape]
    unfold _parseFactor
    rw [keyBase_round k hk ('^' :: (intChars v ++ t)) (.inr (.inr ⟨_, rfl⟩))]
    dsimp only
    rw [show _parseChar ('^' :: (intChars v ++ t)) '^' = .ok ['^'] (intChars v ++ t) ()
      from rfl]
    dsimp only
    rw [parseExponent_round v t (fun c hc => by
      rcases hht with rfl | ⟨t', rfl⟩
      · cases hc
      · cases hc; decide)]
    dsimp only
    rw [factorMap_mulAll]
    have hcc : keyStr k ++ ['^'] ++ intChars v = keyStr k ++ '^' :: intChars v := by simp
    rw [hcc]

theorem renderTokensList_single (kv : Key × Int) :
    renderTokensList [kv] = tokenChars kv.1 kv.2 := by
  unfold renderTokensList
  simp [intercalate_single]

theorem renderTokensList_cons₂ (kv kv2 : Key × Int) (l : List (Key × Int)) :
    renderTokensList (kv :: kv2 :: l) =
      tokenChars kv.1 kv.2 ++ ('*' :: renderTokensList (kv2 :: l)) := by
  unfold renderTokensList
  rw [List.map_cons, List.map_cons, intercalate_cons₂]
  simp

theorem termMapOf_cons₂ (kv kv2 : Key × Int) (l : List (Key × Int)) :
    termMapOf (kv :: kv2 :: l) = (factorMap kv.1 kv.2).addInto (termMapOf (kv2 :: l)) := by
  rfl

theorem tokenChars_head (k : Key) (hk : k ≠ Key.k10) (v : Int) :
    ∃ x t0, tokenChars k v = x :: t0 ∧
      (isDigitChar x = false ∧ x ≠ '(' ∧ x ≠ '*' ∧ x ≠ '/' ∧ x ≠ '^' ∧
       x ≠ '.' ∧ x ≠ 'E' ∧ x ≠ 'e' ∧ x ≠ ' ' ∧ x ≠ '+' ∧ x ≠ '-') := by
  obtain ⟨x, t0, hx, hprops⟩ := keyStr_shape k hk
  exact ⟨x, t0 ++ (if v ≠ 1 then '^' :: intChars v else []), by
    unfold tokenChars
    rw [hx]
    rfl, hprops⟩

theorem parseCharTermF_nil (f : Nat) (ch : Char) :
    _parseCharTermF f ch [] = .fail [] [] := by
  cases f <;> rfl

theorem tokenChars_ne_nil (k : Key) (hk : k ≠ Key.k10) (v : Int) :
    tokenChars k v ≠ [] := by
  obtain ⟨x, t0, hx, _⟩ := tokenChars_head k hk v
  rw [hx]
  simp

/-- Term re-parse of a `*`-joined chain of rendered tokens, consuming the
whole remaining input. -/
theorem parseTermF_round (l : List (Key × Int)) :
    l ≠ [] → (∀ kv ∈ l, kv.1 ≠ Key.k10) →
    ∀ fuel, (renderTokensList l).length + 1 ≤ fuel →
    _parseTermF fuel (renderTokensList l) = .ok (renderTokensList l) [] ⟨termMapOf l, 0⟩ := by
  induction l with
  | nil => intro h; exact absurd rfl h
  | cons kv rest ih =>
    intro _ hks fuel hfuel
    have hk : kv.1 ≠ Key.k10 := hks kv (List.mem_cons_self _ _)
    cases rest with
    | nil =>
      rw [renderTokensList_single] at hfuel ⊢
      obtain ⟨f, rfl⟩ : ∃ f, fuel = f + 1 := ⟨fuel - 1, by omega⟩
      obtain ⟨x, t0, hx, hprops⟩ := tokenChars_head kv.1 hk kv.2
      unfold _parseTermF
      rw [parseChar_fail_of_head (s := tokenChars kv.1 kv.2) (x := x)
        (by rw [hx]; rfl) (Ne.symm hprops.2.1)]
      dsimp only
      rw [show (tokenChars kv.1 kv.2) = tokenChars kv.1 kv.2 ++ [] by simp]
      rw [parseFactor_round kv.1 hk kv.2 [] (.inl rfl)]
      dsimp only
      rw [parseCharTermF_nil, parseCharTermF_nil]
      dsimp only
      rw [show termMapOf [kv] = factorMap kv.1 kv.2 from rfl]
      simp
    | cons kv2 rest2 =>
      rw [renderTokensList_cons₂] at hfuel ⊢
      obtain ⟨f, rfl⟩ : ∃ f, fuel = f + 1 := ⟨fuel - 1, by omega⟩
      obtain ⟨x, t0, hx, hprops⟩ := tokenChars_head kv.1 hk kv.2
      have hhead : (tokenChars kv.1 kv.2 ++ ('*' :: renderTokensList (kv2 :: rest2))).head? =
          some x := by rw [hx]; rfl
      unfold _parseTermF
      rw [parseChar_fail_of_head hhead (Ne.symm hprops.2.1)]
      dsimp only
      rw [parseFactor_round kv.1 hk kv.2 ('*' :: renderTokensList (kv2 :: rest2))
        (.inr ⟨_, rfl⟩)]
      dsimp only
      obtain ⟨f2, rfl⟩ : ∃ f2, f = f2 + 1 := by
        refine ⟨f - 1, ?_⟩
        have h1 : 1 ≤ (tokenChars kv.1 kv.2).length := by
          cases hc : tokenChars kv.1 kv.2 with
          | nil => exact absurd hc (tokenChars_ne_nil kv.1 hk kv.2)
          | cons a b => simp
        simp only [List.length_append, List.length_cons] at hfuel
        omega
      have hchar : _parseCharTermF (f2 + 1) '*' ('*' :: renderTokensList (kv2 :: rest2)) =
          .ok ('*' :: renderTokensList (kv2 :: rest2)) [] ⟨termMapOf (kv2 :: rest2), 0⟩ := by
        unfold _parseCharTermF
        rw [show _parseChar ('*' :: renderTokensList (kv2 :: rest2)) '*' =
          .ok ['*'] (renderTokensList (kv2 :: rest2)) () from rfl]
        dsimp only
        rw [ih (by simp) (fun q hq => hks q (List.mem_cons_of_mem _ hq)) f2 (by
          have h1 : 1 ≤ (tokenChars kv.1 kv.2).length := by
            cases hc : tokenChars kv.1 kv.2 with
            | nil => exact absurd hc (tokenChars_ne_nil kv.1 hk kv.2)
            | cons a b => simp
          simp only [List.length_append, List.length_cons] at hfuel
          omega)]
        rfl
      rw [hchar]
      dsimp only
      rw [termMapOf_cons₂]

theorem expMap_ext {a b : ExpMap} (h : ∀ k, a.get k = b.get k) : a = b := by
  cases a; cases b
  simp only [ExpMap.mk.injEq]
  exact ⟨h .k10, h .kg, h .km, h .ks, h .kA, h .kK, h .kcd, h .kmol,
    h .kpct, h .kppm, h .kppb, h .kppt, h .kppq⟩

theorem empty_get (k : Key) : ExpMap.empty.get k = none := by
  cases k <;> rfl

theorem get_addInto (a b : ExpMap) (k : Key) :
    (a.addInto b).get k = mergeField (· + ·) (a.get k) (b.get k) := by
  cases k <;> rfl

theorem get_negAll (x : ExpMap) (k : Key) :
    x.negAll.get k = (x.get k).map (-·) := by
  cases k <;> rfl

theorem e10_eq_get (x : ExpMap) : x.e10 = x.get Key.k10 := rfl

theorem factorMap_get (k0 : Key) (v : Int) (k : Key) :
    (factorMap k0 v).get k =
      if k = k0 then some v else if k = Key.k10 then some 0 else none := by
  unfold factorMap
  rw [ExpMap.get_set, ExpMap.get_set]
  by_cases h1 : k = k0
  · simp [h1]
  · simp [h1, empty_get]

theorem single10_get (e : Int) (k : Key) :
    (ExpMap.single10 e).get k = if k = Key.k10 then some e else none := by
  unfold ExpMap.single10
  rw [ExpMap.get_set]
  by_cases h1 : k = Key.k10 <;> simp [h1, empty_get]

theorem add10_get (x : ExpMap) (e : Int) (k : Key) :
    (x.add10 e).get k =
      if k = Key.k10 then (x.get Key.k10).map (· + e) else x.get k := by
  unfold ExpMap.add10
  rw [ExpMap.get_set]
  by_cases h1 : k = Key.k10 <;> simp [h1, e10_eq_get]

theorem find?_map_pairs (f : Key → Int) (ks : List Key) (k : Key) :
    ((ks.map (fun q => (q, f q))).find? (fun kv => kv.1 == k)).map Prod.snd =
      if k ∈ ks then some (f k) else none := by
  induction ks with
  | nil => simp
  | cons a t ih =>
    by_cases ha : a = k
    · subst ha
      simp [List.find?_cons]
    · rw [List.map_cons, List.find?_cons]
      have : ((a, f a).1 == k) = false := by simpa using ha
      rw [this]
      rw [ih]
      have hmem : (k ∈ a :: t) = (k ∈ t) := by
        simp [List.mem_cons, Ne.symm ha]
      by_cases hk : k ∈ t
      · simp [hk, Ne.symm ha]
      · simp [hk, Ne.symm ha]

/-- Lookup in the combined map of a rendered token chain. -/
theorem termMapOf_get (l : List (Key × Int)) :
    l ≠ [] → (∀ kv ∈ l, kv.1 ≠ Key.k10) → ((l.map Prod.fst).Nodup) →
    ∀ k : Key, (termMapOf l).get k =
      if k = Key.k10 then some 0
      else (l.find? (fun kv => kv.1 == k)).map Prod.snd := by
  induction l with
  | nil => intro h; exact absurd rfl h
  | cons kv rest ih =>
    intro _ hks hnd k
    have hk1 : kv.1 ≠ Key.k10 := hks kv (List.mem_cons_self _ _)
    cases rest with
    | nil =>
      show (factorMap kv.1 kv.2).get k = _
      rw [factorMap_get]
      by_cases h10 : k = Key.k10
      · subst h10
        rw [if_neg (Ne.symm hk1), if_pos rfl, if_pos rfl]
      · by_cases hkv : k = kv.1
        · subst hkv
          simp [List.find?_cons, h10]
        · simp [List.find?_cons, h10, hkv,
            show (kv.1 == k) = false by simpa using Ne.symm hkv]
    | cons kv2 rest2 =>
      rw [termMapOf_cons₂, get_addInto, factorMap_get]
      have hnd0 : (kv.1 :: (kv2 :: rest2).map Prod.fst).Nodup := by simpa using hnd
      have hnd2 : ((kv2 :: rest2).map Prod.fst).Nodup := (List.nodup_cons.mp hnd0).2
      have hknotin : kv.1 ∉ (kv2 :: rest2).map Prod.fst := (List.nodup_cons.mp hnd0).1
      rw [ih (by simp) (fun q hq => hks q (List.mem_cons_of_mem _ hq)) hnd2 k]
      by_cases h10 : k = Key.k10
      · subst h10
        rw [if_neg (Ne.symm hk1), if_pos rfl, if_pos rfl, if_pos rfl]
        rfl
      · rw [if_neg h10, if_neg h10]
        by_cases hkv : k = kv.1
        · subst hkv
          rw [if_pos rfl]
          have hfind : ((kv2 :: rest2).find? (fun q => q.1 == kv.1)) = none := by
            rw [List.find?_eq_none]
            intro a ha hbeq
            exact hknotin (List.mem_map.mpr ⟨a, ha, by simpa using hbeq⟩)
          simp [mergeField, h10, List.find?_cons, hfind]
        · cases hf : ((kv2 :: rest2).find? (fun q => q.1 == k)) with
          | none =>
            simp [mergeField, hkv, h10, List.find?_cons, hf,
              show (kv.1 == k) = false by simpa using Ne.symm hkv]
          | some q =>
            simp [mergeField, hkv, h10, List.find?_cons, hf,
              show (kv.1 == k) = false by simpa using Ne.symm hkv]

theorem canonicalKeys_nodup : canonicalKeys.Nodup := by decide

theorem presentPairs_keys (x : ExpMap) :
    (presentPairs x).map Prod.fst = (presentKeys x).filter (fun k => k ≠ Key.k10) := by
  unfold presentPairs
  rw [List.map_map]
  rw [show (Prod.fst ∘ fun k => (k, (x.get k).getD 0)) = (id : Key → Key) from rfl,
    List.map_id]

theorem presentPairs_nodup (x : ExpMap) : ((presentPairs x).map Prod.fst).Nodup := by
  rw [presentPairs_keys]
  exact ((canonicalKeys_nodup.filter _).filter _)

theorem presentPairs_ne10 (x : ExpMap) : ∀ kv ∈ presentPairs x, kv.1 ≠ Key.k10 := by
  intro kv hkv
  unfold presentPairs at hkv
  obtain ⟨k, hk, rfl⟩ := List.mem_map.mp hkv
  simpa using (List.mem_filter.mp hk).2

theorem mem_presentKeys {x : ExpMap} {k : Key} :
    k ∈ presentKeys x ↔ (x.get k).isSome := by
  unfold presentKeys
  simp [List.mem_filter, mem_canonicalKeys]

theorem presentPairs_find (x : ExpMap) (k : Key) (hk : k ≠ Key.k10) :
    ((presentPairs x).find? (fun kv => kv.1 == k)).map Prod.snd = x.get k := by
  unfold presentPairs
  rw [find?_map_pairs]
  by_cases hs : (x.get k).isSome
  · rw [if_pos (List.mem_filter.mpr ⟨mem_presentKeys.mpr hs, by simpa using hk⟩)]
    obtain ⟨w, hw⟩ := Option.isSome_iff_exists.mp hs
    simp [hw]
  · rw [if_neg (fun hmem => hs (mem_presentKeys.mp (List.mem_filter.mp hmem).1))]
    exact (Option.not_isSome_iff_eq_none.mp hs).symm

/-- Re-parsing the rendered unit tokens and folding the magnitude's
power-of-ten back in reconstructs the original exponent vector. -/
theorem termMap_reparse (x : ExpMap) (e10 : Int) (hx10 : x.get Key.k10 = some e10)
    (hne : presentPairs x ≠ []) :
    (termMapOf (presentPairs x)).add10 e10 = x := by
  apply expMap_ext
  intro k
  rw [add10_get]
  have htm := termMapOf_get (presentPairs x) hne (presentPairs_ne10 x)
    (presentPairs_nodup x)
  by_cases h10 : k = Key.k10
  · subst h10
    rw [if_pos rfl, htm Key.k10, if_pos rfl]
    rw [hx10]
    simp
  · rw [if_neg h10, htm k, if_neg h10]
    exact presentPairs_find x k h10

/-- With no present non-`10` key, the original vector is the singleton. -/
theorem single10_reparse (x : ExpMap) (e10 : Int) (hx10 : x.get Key.k10 = some e10)
    (hemp : presentPairs x = []) : ExpMap.single10 e10 = x := by
  have hks : (presentKeys x).filter (fun k => k ≠ Key.k10) = [] := by
    have := presentPairs_keys x
    rw [hemp] at this
    exact this.symm
  apply expMap_ext
  intro k
  rw [single10_get]
  by_cases h10 : k = Key.k10
  · subst h10; rw [if_pos rfl, hx10]
  · rw [if_neg h10]
    by_cases hs : (x.get k).isSome
    · exfalso
      have hmem : k ∈ (presentKeys x).filter (fun q => q ≠ Key.k10) :=
        List.mem_filter.mpr ⟨mem_presentKeys.mpr hs, by simpa using h10⟩
      rw [hks] at hmem
      cases hmem
    · exact (Option.not_isSome_iff_eq_none.mp hs).symm

/-!  ## Canonicality of parsed magnitudes and presence of the `10` entry -/

theorem canonical_norm (m : Int) (e : Nat) : (Dec.norm m e).Canonical := by
  induction e generalizing m with
  | zero => intro he; exact absurd rfl he
  | succ e ih =>
    unfold Dec.norm
    by_cases h : m % 10 = 0
    · rw [if_pos h]; exact ih (m / 10)
    · rw [if_neg h]; intro _; exact h

theorem canonical_add (a b : Dec) : (a.add b).Canonical := canonical_norm _ _

theorem canonical_ofInt (i : Int) : (Dec.ofInt i).Canonical := by
  intro h; exact absurd rfl h

theorem jsParseFloat_canonical (s : List Char) (d : Dec)
    (h : jsParseFloat s = some d) : d.Canonical := by
  unfold jsParseFloat at h
  dsimp only at h
  split at h
  · split at h
    · cases h
    · cases h; exact canonical_norm _ _
  · split at h
    · cases h
    · cases h; intro he; exact absurd rfl he

theorem convApply_canonical (n : Nat) (j : JSNum) (d : Dec)
    (h : convApply n j = some d) (hj : ∀ d0, j = some d0 → d0.Canonical) :
    d.Canonical := by
  unfold convApply at h
  match hj2 : j with
  | none => dsimp only at h; cases h
  | some d0 =>
    dsimp only at h
    by_cases hn : n = 0
    · rw [if_pos hn] at h
      cases h
      exact hj _ rfl
    · rw [if_neg hn] at h
      cases h
      exact canonical_add _ _

theorem parseDecimalF_canonical (fuel : Nat) :
    ∀ (s c r : List Char) (v : JSNum) (d : Dec),
      _parseDecimalF fuel s = .ok c r v → v = some d → d.Canonical := by
  induction fuel with
  | zero => intro s c r v d h; cases h
  | succ fuel ih =>
    intro s c r v d h hv
    unfold _parseDecimalF at h
    split at h
    case _ pc pr u hp =>
      split at h
      case _ c2 r2 v2 hi => cases h; exact ih pr c2 r v d hi hv
      case _ => cases h
    case _ =>
      split at h
      case _ mc mr u hm =>
        split at h
        case _ c2 r2 v2 hi =>
          cases h
          cases v2 with
          | none => simp at hv
          | some d2 =>
            simp only [Option.map_some'] at hv
            cases hv
            exact canonical_neg_flip (ih mr c2 r (some d2) d2 hi rfl)
        case _ => cases h
      case _ =>
        dsimp only at h
        split at h
        case _ c2 r2 v2 hdd =>
          cases h
          exact jsParseFloat_canonical _ _ (by rw [← hv])
        case _ =>
          split at h
          case _ c2 r2 v2 hdg =>
            cases h
            cases hv
            exact canonical_ofInt _
          case _ => cases h

theorem parseSignificand_canonical (s c r : List Char) (v : JSNum) (d : Dec)
    (h : _parseSignificand s = .ok c r v) (hv : v = some d) : d.Canonical :=
  parseDecimalF_canonical _ s c r v d h hv

theorem parseMagnitude_canonical (s c r : List Char) (mv : MagVal) (d : Dec)
    (h : _parseMagnitude s = .ok c r mv) (hv : mv.significand = some d) :
    d.Canonical := by
  unfold _parseMagnitude at h
  split at h
  case _ sc sr sv hsig =>
    dsimp only at h
    split at h
    case _ =>
      split at h
      case _ => cases h; exact parseSignificand_canonical _ _ _ _ d hsig hv
      case _ => cases h
    case _ => cases h; exact parseSignificand_canonical _ _ _ _ d hsig hv
  case _ => cases h

theorem e10_negAll {x : ExpMap} (h : x.e10.isSome) : x.negAll.e10.isSome := by
  have : x.negAll.e10 = x.e10.map (-·) := rfl
  rw [this]
  simp [Option.isSome_map]
  simpa using h

theorem e10_add10 {x : ExpMap} (e : Int) (h : x.e10.isSome) : (x.add10 e).e10.isSome := by
  have : (x.add10 e).e10 = x.e10.map (· + e) := rfl
  rw [this]
  simp [Option.isSome_map]
  simpa using h

theorem e10_addInto {a b : ExpMap} (h : a.e10.isSome) : (a.addInto b).e10.isSome := by
  have : (a.addInto b).e10 = mergeField (· + ·) a.e10 b.e10 := rfl
  rw [this]
  cases hb : b.e10 with
  | none => simpa [mergeField]
  | some w => simp [mergeField]

theorem e10_subInto {a b : ExpMap} (h : a.e10.isSome) : (a.subInto b).e10.isSome := by
  have : (a.subInto b).e10 = mergeField (· - ·) a.e10 b.e10 := rfl
  rw [this]
  cases hb : b.e10 with
  | none => simpa [mergeField]
  | some w => simp [mergeField]

theorem e10_set_some {x : ExpMap} {k : Key} {w : Int} (h : x.e10.isSome) :
    (x.set k (some w)).e10.isSome := by
  have : (x.set k (some w)).e10 = (x.set k (some w)).get Key.k10 := rfl
  rw [this, ExpMap.get_set]
  by_cases h1 : Key.k10 = k <;> simp [h1]
  simpa [e10_eq_get] using h

theorem parseBase_e10 {s c r : List Char} {v : BaseVal}
    (h : _parseBase s = .ok c r v) : v.exps.e10.isSome := by
  unfold _parseBase at h
  split at h
  case _ p u hpick =>
    split at h
    case _ q hq =>
      cases h
      dsimp only
      have hfold : ∀ (entries : List (Key × Int)) (m : ExpMap), m.e10.isSome →
          ((entries.foldl (fun m kv => m.set kv.1 (some ((m.get kv.1).getD 0 + kv.2))) m).e10).isSome := by
        intro entries
        induction entries with
        | nil => intro m hm; exact hm
        | cons kv t ih =>
          intro m hm
          exact ih _ (e10_set_some hm)
      exact hfold _ _ (by simp [ExpMap.set, ExpMap.empty])
    case _ hq =>
      split at h
      case _ k hk =>
        cases h
        exact e10_set_some (by simp [ExpMap.set, ExpMap.empty])
      case _ => cases h
  case _ => cases h

theorem parseFactor_e10 {s c r : List Char} {v : BaseVal}
    (h : _parseFactor s = .ok c r v) : v.exps.e10.isSome := by
  unfold _parseFactor at h
  split at h
  case _ bc br bv hb =>
    have hbase := parseBase_e10 hb
    split at h
    case _ cc cr u hcaret =>
      split at h
      case _ ec er ev hev =>
        cases h
        dsimp only
        have : (bv.exps.mulAll ev).e10 = bv.exps.e10.map (· * ev) := rfl
        rw [this]
        simp [Option.isSome_map]
        simpa using hbase
      case _ => cases h
    case _ => cases h; exact hbase
  case _ => cases h

theorem parseTermF_e10 (fuel : Nat) :
    (∀ s c r tv, _parseTermF fuel s = .ok c r tv → tv.exps.e10.isSome) ∧
    (∀ ch s c r tv, _parseCharTermF fuel ch s = .ok c r tv → tv.exps.e10.isSome) := by
  induction fuel with
  | zero =>
    constructor
    · intro s c r tv h; cases h
    · intro ch s c r tv h; cases h
  | succ fuel ih =>
    obtain ⟨ihT, ihC⟩ := ih
    constructor
    · intro s c r tv h
      unfold _parseTermF at h
      split at h
      case _ oc orest u hopen =>
        split at h
        case _ tc tr tv2 ht =>
          split at h
          case _ => cases h; exact ihT _ _ _ _ ht
          case _ => cases h
        case _ => cases h
      case _ =>
        split at h
        case _ fc fr fv hf =>
          have hfe := parseFactor_e10 hf
          split at h
          case _ ac ar av ha =>
            cases h
            exact e10_addInto hfe
          case _ =>
            split at h
            case _ sc sr sv hs =>
              cases h
              exact e10_subInto hfe
            case _ => cases h; exact hfe
        case _ => cases h
    · intro ch s c r tv h
      unfold _parseCharTermF at h
      split at h
      case _ cc cr u hc =>
        split at h
        case _ tc tr tv2 ht => cases h; exact ihT _ _ _ _ ht
        case _ => cases h
      case _ => cases h

theorem parseTerm_e10 {s c r : List Char} {tv : BaseVal}
    (h : _parseTerm s = .ok c r tv) : tv.exps.e10.isSome :=
  (parseTermF_e10 _).1 _ _ _ _ h

theorem e10_ite (c : Prop) [Decidable c] (a b : ExpMap)
    (ha : a.e10.isSome) (hb : b.e10.isSome) : (if c then a else b).e10.isSome := by
  split
  · exact ha
  · exact hb

theorem exprTermPart_e10 (s mc mr : List Char) (mag? : Option MagVal)
    (c r : List Char) (v : ExprVal)
    (h : exprTermPart s mc mr mag? = .ok c r v) : v.exps.e10.isSome := by
  unfold exprTermPart at h
  dsimp only at h
  split at h
  case _ tc tr tv ht =>
    have htv := parseTerm_e10 ht
    cases mag? with
    | some mv =>
      cases h
      exact e10_add10 _ (e10_ite _ _ _ (e10_negAll htv) htv)
    | none =>
      cases h
      exact e10_ite _ _ _ (e10_negAll htv) htv
  case _ => cases h

theorem parseExpression_e10 {s c r : List Char} {v : ExprVal}
    (h : _parseExpression s = .ok c r v) : v.exps.e10.isSome := by
  unfold _parseExpression at h
  split at h
  case _ mc mr mv hmag =>
    split at h
    case _ =>
      cases h
      simp [ExpMap.single10, ExpMap.set, ExpMap.empty]
    case _ => exact exprTermPart_e10 _ _ _ _ _ _ _ h
  case _ mc mr hmag =>
    split at h
    case _ =>
      split at h
      case _ => cases h
      case _ => exact exprTermPart_e10 _ _ _ _ _ _ _ h
    case _ => cases h

theorem exprTermPart_canonical (s mc mr : List Char) (mag? : Option MagVal)
    (c r : List Char) (v : ExprVal)
    (h : exprTermPart s mc mr mag? = .ok c r v)
    (hmag : ∀ mv d, mag? = some mv → mv.significand = some d → d.Canonical) :
    ∀ d, v.magnitude = some d → d.Canonical := by
  unfold exprTermPart at h
  dsimp only at h
  split at h
  case _ tc tr tv ht =>
    cases mag? with
    | some mv =>
      cases h
      intro d hd
      exact convApply_canonical _ _ _ hd (fun d0 h0 => hmag mv d0 rfl h0)
    | none =>
      cases h
      intro d hd
      cases hd
  case _ => cases h

theorem parseExpression_canonical {s c r : List Char} {v : ExprVal} {d : Dec}
    (h : _parseExpression s = .ok c r v) (hd : v.magnitude = some d) :
    d.Canonical := by
  unfold _parseExpression at h
  split at h
  case _ mc mr mv hmag =>
    split at h
    case _ =>
      cases h
      exact parseMagnitude_canonical _ _ _ _ _ hmag hd
    case _ =>
      exact exprTermPart_canonical _ _ _ _ _ _ _ h
        (fun mv2 d2 he h2 => by
          cases he
          exact parseMagnitude_canonical _ _ _ _ _ hmag h2) d hd
  case _ mc mr hmag =>
    split at h
    case _ =>
      split at h
      case _ => cases h
      case _ =>
        exact exprTermPart_canonical _ _ _ _ _ _ _ h
          (fun mv2 d2 he h2 => by cases he) d hd
    case _ => cases h

theorem convApply_zero (j : JSNum) : convApply 0 j = j := by
  cases j <;> simp [convApply]

theorem renderTokensList_nil : renderTokensList [] = [] := rfl

theorem renderTokensList_head (pp : List (Key × Int)) (hne : pp ≠ [])
    (hks : ∀ kv ∈ pp, kv.1 ≠ Key.k10) :
    ∃ x0 t0, renderTokensList pp = x0 :: t0 ∧
      (isDigitChar x0 = false ∧ x0 ≠ '(' ∧ x0 ≠ '*' ∧ x0 ≠ '/' ∧ x0 ≠ '^' ∧
       x0 ≠ '.' ∧ x0 ≠ 'E' ∧ x0 ≠ 'e' ∧ x0 ≠ ' ' ∧ x0 ≠ '+' ∧ x0 ≠ '-') := by
  cases pp with
  | nil => exact absurd rfl hne
  | cons kv rest =>
    have hk : kv.1 ≠ Key.k10 := hks kv (List.mem_cons_self _ _)
    obtain ⟨x, t0, hx, hprops⟩ := tokenChars_head kv.1 hk kv.2
    cases rest with
    | nil =>
      refine ⟨x, t0, ?_, hprops⟩
      rw [renderTokensList_single, hx]
    | cons kv2 r2 =>
      refine ⟨x, t0 ++ ('*' :: renderTokensList (kv2 :: r2)), ?_, hprops⟩
      rw [renderTokensList_cons₂, hx]
      rfl

theorem exprTermPart_eval (s mc : List Char) (mv : MagVal) (pp : List (Key × Int))
    (hne : pp ≠ []) (hks : ∀ kv ∈ pp, kv.1 ≠ Key.k10) :
    exprTermPart s mc (renderTokensList pp) (some mv) =
      .ok (mc ++ renderTokensList pp) []
        ⟨mv.significand, (termMapOf pp).add10 mv.exponent⟩ := by
  obtain ⟨x0, t0, hU, hprops⟩ := renderTokensList_head pp hne hks
  have hterm : _parseTerm (renderTokensList pp) =
      .ok (renderTokensList pp) [] ⟨termMapOf pp, 0⟩ := by
    unfold _parseTerm
    exact parseTermF_round pp hne hks _ (le_refl _)
  have h1 : ¬((renderTokensList pp).head? = some '*') := by
    rw [hU]; simp [hprops.2.2.1]
  have h2 : ¬((renderTokensList pp).head? = some '/') := by
    rw [hU]; simp [hprops.2.2.2.1]
  unfold exprTermPart
  dsimp only
  rw [if_neg h1, if_neg h2]
  rw [if_pos (rfl : ([] : List Char) = [])]
  rw [hterm]
  dsimp only
  rw [if_neg (show ¬(([] : List Char) = ['/']) by simp)]
  simp [convApply_zero]

theorem jsNumChars_plain {d : Dec} (h : plainRange d = true) :
    jsNumChars d = decChars d := by
  unfold jsNumChars
  rw [if_pos h]

theorem parseExpression_round (d : Dec) (hcan : d.Canonical) (hplain : plainRange d = true)
    (x : ExpMap) (e10v : Int)
    (hx10 : x.get Key.k10 = some e10v) :
    _parseExpression (renderMagnitude (some d) x ++ renderUnits x) =
      .ok (renderMagnitude (some d) x ++ renderUnits x) [] ⟨some d, x⟩ := by
  have hx10' : x.e10 = some e10v := by rw [e10_eq_get]; exact hx10
  by_cases hemp : presentPairs x = []
  · have hU : renderUnits x = [] := by rw [renderUnits_eq, hemp, renderTokensList_nil]
    by_cases he : e10v = 0
    · subst he
      have hmagr : renderMagnitude (some d) x = decChars d := by
        unfold renderMagnitude
        rw [hx10']
        simp [jsonNum, jsNumChars_plain hplain]
      rw [hmagr, hU, List.append_nil]
      have hm : _parseMagnitude (decChars d) = .ok (decChars d) [] ⟨some d, 0⟩ := by
        have := parseMagnitude_round_zero d hcan [] (by intro c hc; cases hc)
        simpa using this
      unfold _parseExpression
      rw [hm]
      dsimp only
      rw [single10_reparse x 0 hx10 hemp]
    · have hmagr : renderMagnitude (some d) x =
          decChars d ++ ('*' :: '1' :: '0' :: '^' :: intChars e10v) := by
        unfold renderMagnitude
        rw [hx10']
        rw [if_pos (show (some e10v : Option Int) ≠ some 0 by simpa using he)]
        rw [show jsonNum (some d) = jsNumChars d from rfl, jsNumChars_plain hplain]
        rfl
      rw [hmagr, hU, List.append_nil]
      have hm : _parseMagnitude (decChars d ++ ('*' :: '1' :: '0' :: '^' :: intChars e10v)) =
          .ok (decChars d ++ ('*' :: '1' :: '0' :: '^' :: intChars e10v)) [] ⟨some d, e10v⟩ := by
        have := parseMagnitude_round_pos d hcan e10v [] (by intro c hc; cases hc)
        simpa using this
      unfold _parseExpression
      rw [hm]
      dsimp only
      rw [single10_reparse x e10v hx10 hemp]
  · have hUeq : renderUnits x = renderTokensList (presentPairs x) := renderUnits_eq x
    obtain ⟨x0, t0, hU, hprops⟩ :=
      renderTokensList_head (presentPairs x) hemp (presentPairs_ne10 x)
    by_cases he : e10v = 0
    · subst he
      have hmagr : renderMagnitude (some d) x = decChars d := by
        unfold renderMagnitude
        rw [hx10']
        simp [jsonNum, jsNumChars_plain hplain]
      rw [hmagr, hUeq]
      have hm := parseMagnitude_round_zero d hcan (renderTokensList (presentPairs x))
        (by
          intro c hc
          rw [hU] at hc
          cases hc
          exact ⟨hprops.1, hprops.2.2.2.2.2.1, hprops.2.2.1,
            hprops.2.2.2.2.2.2.1, hprops.2.2.2.2.2.2.2.1⟩)
      unfold _parseExpression
      rw [hm]
      dsimp only
      rw [hU]
      dsimp only
      rw [← hU]
      rw [exprTermPart_eval _ _ _ _ hemp (presentPairs_ne10 x)]
      rw [show (⟨some d, (0 : Int)⟩ : MagVal).significand = some d from rfl]
      rw [show (⟨some d, (0 : Int)⟩ : MagVal).exponent = (0 : Int) from rfl]
      rw [termMap_reparse x 0 hx10 hemp]
    · have hmagr : renderMagnitude (some d) x =
          decChars d ++ ('*' :: '1' :: '0' :: '^' :: intChars e10v) := by
        unfold renderMagnitude
        rw [hx10']
        rw [if_pos (show (some e10v : Option Int) ≠ some 0 by simpa using he)]
        rw [show jsonNum (some d) = jsNumChars d from rfl, jsNumChars_plain hplain]
        rfl
      rw [hmagr, hUeq]
      have hm := parseMagnitude_round_pos d hcan e10v (renderTokensList (presentPairs x))
        (by
          intro c hc
          rw [hU] at hc
          cases hc
          exact hprops.1)
      unfold _parseExpression
      rw [show (decChars d ++ ('*' :: '1' :: '0' :: '^' :: intChars e10v)) ++
          renderTokensList (presentPairs x) =
          decChars d ++ ('*' :: '1' :: '0' :: '^' ::
            (intChars e10v ++ renderTokensList (presentPairs x))) by simp]
      rw [hm]
      dsimp only
      rw [hU]
      dsimp only
      rw [← hU]
      rw [exprTermPart_eval _ _ _ _ hemp (presentPairs_ne10 x)]
      rw [show (⟨some d, e10v⟩ : MagVal).significand = some d from rfl]
      rw [show (⟨some d, e10v⟩ : MagVal).exponent = e10v from rfl]
      rw [termMap_reparse x e10v hx10 hemp]
      simp

theorem natDigits_noSpace (n : Nat) : ∀ c ∈ natDigits n, c ≠ ' ' := by
  intro c hc he
  have := natDigits_all_digits n c hc
  rw [he] at this
  exact absurd this (by decide)

theorem fracDigits_noSpace (e n : Nat) : ∀ c ∈ fracDigits e n, c ≠ ' ' := by
  intro c hc he
  have := fracDigits_all_digits e n c hc
  rw [he] at this
  exact absurd this (by decide)

theorem intChars_noSpace (i : Int) : ∀ c ∈ intChars i, c ≠ ' ' := by
  intro c hc
  unfold intChars at hc
  split at hc
  · rcases List.mem_cons.mp hc with h | h
    · subst h; decide
    · exact natDigits_noSpace _ c h
  · exact natDigits_noSpace _ c hc

theorem decChars_noSpace (d : Dec) : ∀ c ∈ decChars d, c ≠ ' ' := by
  intro c hc
  unfold decChars at hc
  split at hc
  · rcases List.mem_cons.mp hc with h | h
    · subst h; decide
    · split at h
      · exact natDigits_noSpace _ c h
      · rcases List.mem_append.mp h with h2 | h2
        · exact natDigits_noSpace _ c h2
        · rcases List.mem_cons.mp h2 with h3 | h3
          · subst h3; decide
          · exact fracDigits_noSpace _ _ c h3
  · split at hc
    · exact natDigits_noSpace _ c hc
    · rcases List.mem_append.mp hc with h2 | h2
      · exact natDigits_noSpace _ c h2
      · rcases List.mem_cons.mp h2 with h3 | h3
        · subst h3; decide
        · exact fracDigits_noSpace _ _ c h3

theorem trimZeros_subset (l : List Char) : ∀ c ∈ trimZeros l, c ∈ l := by
  intro c hc
  unfold trimZeros at hc
  rw [List.mem_reverse] at hc
  have := (List.dropWhile_sublist (l := l.reverse) (p := fun c => c = '0')).subset hc
  exact List.mem_reverse.mp this

theorem decCharsExp_noSpace (d : Dec) : ∀ c ∈ decCharsExp d, c ≠ ' ' := by
  have hsig : ∀ c ∈ trimZeros (natDigits d.m.natAbs), c ≠ ' ' := fun c hc =>
    natDigits_noSpace _ c (trimZeros_subset _ c hc)
  have hbody : ∀ c ∈ ((trimZeros (natDigits d.m.natAbs)).take 1 ++
      (if (trimZeros (natDigits d.m.natAbs)).drop 1 = [] then []
        else '.' :: (trimZeros (natDigits d.m.natAbs)).drop 1) ++
      'e' :: (if decPointPos d - 1 < 0
        then '-' :: natDigits (decPointPos d - 1).natAbs
        else '+' :: natDigits (decPointPos d - 1).natAbs)), c ≠ ' ' := by
    intro c hc
    rcases List.mem_append.mp hc with h | h
    · rcases List.mem_append.mp h with h2 | h2
      · exact hsig c (List.take_subset _ _ h2)
      · split at h2
        · cases h2
        · rcases List.mem_cons.mp h2 with h3 | h3
          · subst h3; decide
          · exact hsig c (List.drop_subset _ _ h3)
    · rcases List.mem_cons.mp h with h2 | h2
      · subst h2; decide
      · split at h2
        · rcases List.mem_cons.mp h2 with h3 | h3
          · subst h3; decide
          · exact natDigits_noSpace _ c h3
        · rcases List.mem_cons.mp h2 with h3 | h3
          · subst h3; decide
          · exact natDigits_noSpace _ c h3
  intro c hc
  unfold decCharsExp at hc
  dsimp only at hc
  split at hc
  · rcases List.mem_cons.mp hc with h | h
    · subst h; decide
    · exact hbody c (by simpa [List.append_assoc] using h)
  · exact hbody c (by simpa [List.append_assoc] using hc)

theorem jsonNum_noSpace (j : JSNum) : ∀ c ∈ jsonNum j, c ≠ ' ' := by
  intro c hc
  cases j with
  | none =>
    intro he
    subst he
    revert hc
    decide
  | some d =>
    rw [show jsonNum (some d) = jsNumChars d from rfl] at hc
    unfold jsNumChars at hc
    split at hc
    · exact decChars_noSpace d c hc
    · exact decCharsExp_noSpace d c hc

theorem exp10Chars_noSpace (o : Option Int) : ∀ c ∈ exp10Chars o, c ≠ ' ' := by
  intro c hc
  cases o with
  | some e => exact intChars_noSpace e c hc
  | none =>
    intro he
    subst he
    revert hc
    decide

theorem renderMagnitude_noSpace (mag : JSNum) (x : ExpMap) :
    ∀ c ∈ renderMagnitude mag x, c ≠ ' ' := by
  intro c hc
  unfold renderMagnitude at hc
  rcases List.mem_append.mp hc with h | h
  · exact jsonNum_noSpace mag c h
  · split at h
    · rcases List.mem_cons.mp h with h2 | h2
      · subst h2; decide
      · rcases List.mem_cons.mp h2 with h3 | h3
        · subst h3; decide
        · rcases List.mem_cons.mp h3 with h4 | h4
          · subst h4; decide
          · rcases List.mem_cons.mp h4 with h5 | h5
            · subst h5; decide
            · exact exp10Chars_noSpace _ c h5
    · cases h

theorem keyStr_noSpace (k : Key) : ∀ c ∈ keyStr k, c ≠ ' ' := by
  cases k <;> decide

theorem tokenChars_noSpace (k : Key) (v : Int) : ∀ c ∈ tokenChars k v, c ≠ ' ' := by
  intro c hc
  unfold tokenChars at hc
  rcases List.mem_append.mp hc with h | h
  · exact keyStr_noSpace k c h
  · split at h
    · rcases List.mem_cons.mp h with h2 | h2
      · subst h2; decide
      · exact intChars_noSpace _ c h2
    · cases h

theorem renderTokensList_noSpace (l : List (Key × Int)) :
    ∀ c ∈ renderTokensList l, c ≠ ' ' := by
  induction l with
  | nil =>
    intro c hc
    rw [renderTokensList_nil] at hc
    cases hc
  | cons kv rest ih =>
    cases rest with
    | nil =>
      rw [renderTokensList_single]
      exact tokenChars_noSpace _ _
    | cons kv2 r2 =>
      rw [renderTokensList_cons₂]
      intro c hc
      rcases List.mem_append.mp hc with h | h
      · exact tokenChars_noSpace _ _ c h
      · rcases List.mem_cons.mp h with h2 | h2
        · subst h2; decide
        · exact ih c h2

theorem renderUnits_noSpace (x : ExpMap) : ∀ c ∈ renderUnits x, c ≠ ' ' := by
  rw [renderUnits_eq]
  exact renderTokensList_noSpace _

theorem filter_noSpace_id (l : List Char) (h : ∀ c ∈ l, c ≠ ' ') :
    l.filter (fun c => c ≠ ' ') = l := by
  rw [List.filter_eq_self]
  intro a ha
  simpa using h a ha

theorem decCharsExp_ne_nil (d : Dec) : decCharsExp d ≠ [] := by
  unfold decCharsExp
  dsimp only
  split
  · simp
  · simp

theorem jsNumChars_ne_nil (d : Dec) : jsNumChars d ≠ [] := by
  unfold jsNumChars
  split
  · exact decChars_ne_nil d
  · exact decCharsExp_ne_nil d

theorem renderMagnitude_ne_nil (mag : JSNum) (x : ExpMap) :
    renderMagnitude mag x ≠ [] := by
  unfold renderMagnitude
  intro h
  rcases List.append_eq_nil.mp h with ⟨h1, _⟩
  cases mag with
  | none => cases h1
  | some d => exact jsNumChars_ne_nil d h1

theorem normalizeUnits_fixed (d : Dec) (hcan : d.Canonical) (hplain : plainRange d = true)
    (x : ExpMap) (e10v : Int)
    (hx10 : x.get Key.k10 = some e10v) :
    normalizeUnits (String.mk (renderMagnitude (some d) x ++
        (if renderUnits x = ['%'] || renderUnits x = [] then [] else [' ']) ++
        renderUnits x)) =
      .ok (String.mk (renderMagnitude (some d) x ++
        (if renderUnits x = ['%'] || renderUnits x = [] then [] else [' ']) ++
        renderUnits x)) := by
  have hsepf : ((if renderUnits x = ['%'] || renderUnits x = [] then ([] : List Char)
      else [' ']).filter (fun c => c ≠ ' ')) = [] := by
    split <;> rfl
  have hstrip : ((renderMagnitude (some d) x ++
      (if renderUnits x = ['%'] || renderUnits x = [] then [] else [' ']) ++
      renderUnits x).filter (fun c => c ≠ ' ')) =
      renderMagnitude (some d) x ++ renderUnits x := by
    rw [List.filter_append, List.filter_append]
    rw [filter_noSpace_id _ (renderMagnitude_noSpace _ _),
      filter_noSpace_id _ (renderUnits_noSpace _), hsepf]
    simp
  have hne : renderMagnitude (some d) x ++ renderUnits x ≠ [] := by
    intro h
    exact renderMagnitude_ne_nil _ _ (List.append_eq_nil.mp h).1
  unfold normalizeUnits
  unfold _normalizeUnitsL
  dsimp only
  rw [hstrip]
  rw [if_neg hne]
  rw [parseExpression_round d hcan hplain x e10v hx10]
  dsimp only
  rw [if_neg (show ¬(renderMagnitude (some d) x = [] &&
      renderUnits x = []) = true by
    simp
    intro h
    exact absurd h (renderMagnitude_ne_nil _ _))]

/-- C3 (corrected): idempotence holds under two provisos about the first
parse — the magnitude is an actual number (not `NaN`), and it lies in
JavaScript's plain-decimal rendering range: then whenever `normalizeUnits`
succeeds, running it again on the output succeeds and returns the output
unchanged.  Both provisos are needed: a bare unit term normalizes to a
string starting with the literal `null`, and a tiny magnitude such as
`0.0000001` renders in exponential notation `1e-7`, which re-normalizes
to the different spelling `1*10^-7`. -/
theorem claim_C3 (s out : String) (h : normalizeUnits s = .ok out)
    (hres : magnitudeResolved s.data = true)
    (hplain : magnitudePlain s.data = true) :
    normalizeUnits out = .ok out := by
  unfold normalizeUnits at h
  split at h
  case _ c r v heq =>
    cases h
    unfold _normalizeUnitsL at heq
    dsimp only at heq
    split at heq
    case _ hem =>
      cases heq
      dsimp only
      rw [if_pos (by decide)]
      rfl
    case _ hem =>
      split at heq
      case _ c2 r2 v2 hexp =>
        cases heq
        have hsome : v2.magnitude.isSome := by
          unfold magnitudeResolved at hres
          dsimp only at hres
          rw [hexp] at hres
          rcases Bool.or_eq_true_iff.mp hres with h1 | h2
          · exact absurd (of_decide_eq_true h1) hem
          · exact h2
        obtain ⟨d, hd⟩ := Option.isSome_iff_exists.mp hsome
        have hpl : plainRange d = true := by
          unfold magnitudePlain at hplain
          dsimp only at hplain
          rw [hexp] at hplain
          rcases Bool.or_eq_true_iff.mp hplain with h1 | h2
          · exact absurd (of_decide_eq_true h1) hem
          · dsimp only at h2
            rw [hd] at h2
            exact h2
        have hcan : d.Canonical := parseExpression_canonical hexp hd
        obtain ⟨e10v, he10⟩ := Option.isSome_iff_exists.mp (parseExpression_e10 hexp)
        have hx10 : v2.exps.get Key.k10 = some e10v := by
          rw [← e10_eq_get]
          exact he10
        dsimp only
        rw [hd]
        rw [if_neg (show ¬(renderMagnitude (some d) v2.exps = [] &&
            renderUnits v2.exps = []) = true by
          simp
          intro h2
          exact absurd h2 (renderMagnitude_ne_nil _ _))]
        exact normalizeUnits_fixed d hcan hpl v2.exps e10v hx10
      case _ => cases heq
  case _ => cases h

/-- C3, counterexample to the unconditional claim and to the single
`NaN`-proviso: `normalizeUnits "kPa"` succeeds with
`"null*10^6 g*m^-1*s^-2"`, whose re-normalization raises instead of
returning it; and `normalizeUnits "0.0000001"` succeeds with the
resolved magnitude `1e-7` in exponential notation, whose
re-normalization succeeds but returns the different spelling
`"1*10^-7"`. -/
theorem claim_C3_counterexample :
    (normalizeUnits "kPa" = .ok "null*10^6 g*m^-1*s^-2" ∧
     normalizeUnits "null*10^6 g*m^-1*s^-2" =
       .error "Unable to parse after '' in 'null*10^6 g*m^-1*s^-2'. Are you sure metric units are being used?") ∧
    (normalizeUnits "0.0000001" = .ok "1e-7" ∧
     normalizeUnits "1e-7" = .ok "1*10^-7") :=
  ⟨⟨rfl, rfl⟩, ⟨rfl, rfl⟩⟩

/-- Witness for C3 at the concrete input `"50 kPa"`: the first
normalization succeeds with a resolved, plainly-rendered magnitude, and
the second application returns the output unchanged. -/
theorem claim_C3_witness :
    normalizeUnits "50 kPa" = .ok "50*10^6 g*m^-1*s^-2" ∧
    magnitudeResolved ("50 kPa").data = true ∧
    magnitudePlain ("50 kPa").data = true ∧
    normalizeUnits "50*10^6 g*m^-1*s^-2" = .ok "50*10^6 g*m^-1*s^-2" :=
  ⟨rfl, rfl, rfl, claim_C3 "50 kPa" "50*10^6 g*m^-1*s^-2" rfl rfl rfl⟩
